import Mathlib

/-!
Shallow embedding of the `rust-order-book` matching engine.

The embedded code is the exercised core in `src/book.rs` together with the
enum, error and report types it uses (`src/enums.rs`, `src/error.rs`, and the
order/report definitions matching the `u64` iteration of the crate).

Modelling conventions:
- `u64` values (prices, quantities, ids, counters) are `Nat`; the crate's
  `safe_add`/`safe_sub` helpers saturate at `2^64 - 1` resp. at `0`, which is
  mirrored exactly (`Nat` subtraction is already truncated).
- `HashMap<OrderId, LimitOrder>` is an association list addressed only
  through `lookup`/`insert`/`remove`.
- `BTreeMap<u64, VecDeque<OrderId>>` is an association list kept sorted in
  strictly ascending key order; iteration is list traversal, `.rev()`
  traverses the reversed list.
- the host clock (`current_timestamp_millis`) is injected and algorithmically
  irrelevant; timestamps are embedded as the constant `0`.
- fallible operations return the `Result` value paired with the post-state of
  the book (`&mut self` in the source).
-/

namespace RustOrderBook

/-- `Side` from `src/enums.rs`. -/
inductive Side where
  | Buy
  | Sell
deriving DecidableEq

/-- `OrderType` from `src/enums.rs`. -/
inductive OrderType where
  | Market
  | Limit
deriving DecidableEq

/-- `TimeInForce` from `src/enums.rs`. -/
inductive TimeInForce where
  | GTC
  | IOC
  | FOK
deriving DecidableEq

/-- `OrderStatus` from `src/enums.rs`. -/
inductive OrderStatus where
  | New
  | PartiallyFilled
  | Filled
  | Canceled
  | Rejected
deriving DecidableEq

/-- `JournalOp` as used by `src/book.rs` (market, limit, cancel, modify). -/
inductive JournalOp where
  | Market
  | Limit
  | Cancel
  | Modify
deriving DecidableEq

/-- `ErrorType` from `src/error.rs`. -/
inductive ErrorType where
  | Default
  | InvalidPrice
  | InvalidPriceOrQuantity
  | InvalidQuantity
  | OrderAlredyExists
  | OrderNotFound
  | OrderPostOnly
  | OrderIOC
  | OrderFOK
  | InsufficientQuantity
  | InvalidPriceLevel
  | OrderBookEmpty
deriving DecidableEq

/-- `ErrorType::code` from `src/error.rs`. -/
def ErrorType.code : ErrorType → Nat
  | .Default => 1000
  | .InvalidQuantity => 1101
  | .InvalidPrice => 1102
  | .InvalidPriceOrQuantity => 1103
  | .OrderPostOnly => 1104
  | .OrderIOC => 1105
  | .OrderFOK => 1106
  | .OrderAlredyExists => 1109
  | .OrderNotFound => 1110
  | .OrderBookEmpty => 1200
  | .InsufficientQuantity => 1201
  | .InvalidPriceLevel => 1202

/-- `ErrorType::message` from `src/error.rs`. -/
def ErrorType.message : ErrorType → String
  | .Default => "Something wrong"
  | .InvalidQuantity => "Invalid order quantity"
  | .InvalidPrice => "Invalid order price"
  | .InvalidPriceOrQuantity => "Invalid order price or quantity"
  | .OrderPostOnly =>
      "Post Only order rejected: would execute immediately against existing orders"
  | .OrderIOC =>
      "IOC order rejected: no immediate liquidity available at requested price"
  | .OrderFOK => "FOK order rejected: unable to fill entire quantity immediately"
  | .OrderAlredyExists => "Order already exists"
  | .OrderNotFound => "Order not found"
  | .OrderBookEmpty => "Order book is empty"
  | .InsufficientQuantity => "Insufficient quantity to calculate price"
  | .InvalidPriceLevel => "Invalid order price level"

/-- `OrderBookError` from `src/error.rs`. -/
structure OrderBookError where
  code : Nat
  message : String
deriving DecidableEq

/-- `make_error` from `src/error.rs` (the `ErrorType` instance). -/
def make_error (t : ErrorType) : OrderBookError :=
  { code := t.code, message := t.message }

/-- Largest `u64` value; the crate's arithmetic saturates here. -/
def U64MAX : Nat := 2 ^ 64 - 1

/-- `safe_add` from `src/utils.rs`: `u64::saturating_add`. -/
def safe_add (a b : Nat) : Nat := min (a + b) U64MAX

/-- `safe_sub` from `src/utils.rs`: `u64::saturating_sub` (truncated `Nat`
subtraction). -/
def safe_sub (a b : Nat) : Nat := a - b

/-- `MarketOrderOptions` from the order module used by `src/book.rs`. -/
structure MarketOrderOptions where
  side : Side
  quantity : Nat
deriving DecidableEq

/-- `LimitOrderOptions` from the order module used by `src/book.rs`. -/
structure LimitOrderOptions where
  side : Side
  quantity : Nat
  price : Nat
  time_in_force : Option TimeInForce
  post_only : Option Bool
deriving DecidableEq

/-- `get_order_time_in_force`: defaulting helper (`unwrap_or(GTC)`). -/
def get_order_time_in_force (t : Option TimeInForce) : TimeInForce :=
  t.getD TimeInForce.GTC

/-- `LimitOrder` record as stored in the book's order index. -/
structure LimitOrder where
  id : Nat
  side : Side
  executed_qty : Nat
  remaining_qty : Nat
  orig_qty : Nat
  price : Nat
  order_type : OrderType
  time : Int
  time_in_force : TimeInForce
  post_only : Bool
  taker_qty : Nat
  maker_qty : Nat
  status : OrderStatus
deriving DecidableEq

/-- `LimitOrder::new(id, options)`: fresh limit order record. -/
def LimitOrder.new (id : Nat) (options : LimitOrderOptions) : LimitOrder :=
  { id := id
    side := options.side
    orig_qty := options.quantity
    executed_qty := 0
    remaining_qty := options.quantity
    price := options.price
    order_type := OrderType.Limit
    time := 0
    time_in_force := get_order_time_in_force options.time_in_force
    post_only := options.post_only.getD false
    taker_qty := 0
    maker_qty := 0
    status := OrderStatus.New }

/-- `MarketOrder` record (transient; never stored in the index). -/
structure MarketOrder where
  id : Nat
  side : Side
  orig_qty : Nat
  executed_qty : Nat
  remaining_qty : Nat
  order_type : OrderType
  time : Int
  status : OrderStatus
deriving DecidableEq

/-- `MarketOrder::new(id, options)`. -/
def MarketOrder.new (id : Nat) (options : MarketOrderOptions) : MarketOrder :=
  { id := id
    side := options.side
    orig_qty := options.quantity
    executed_qty := 0
    remaining_qty := options.quantity
    order_type := OrderType.Market
    time := 0
    status := OrderStatus.New }

/-- `FillReport` from the report module. -/
structure FillReport where
  order_id : Nat
  price : Nat
  quantity : Nat
  status : OrderStatus
deriving DecidableEq

/-- `OrderOptions` journal payload as used by `src/book.rs`. -/
inductive OrderOptions where
  | Market (o : MarketOrderOptions)
  | Limit (o : LimitOrderOptions)
  | Cancel (id : Nat)
  | Modify (id : Nat) (price : Option Nat) (quantity : Option Nat)
deriving DecidableEq

/-- `JournalLog` from `src/journal.rs` (`ts` is the injected clock, embedded
as `0`). -/
structure JournalLog where
  op_id : Nat
  ts : Int
  op : JournalOp
  o : OrderOptions
deriving DecidableEq

/-- `ExecutionReport` from the report module used by `src/book.rs`. -/
structure ExecutionReport where
  order_id : Nat
  orig_qty : Nat
  executed_qty : Nat
  remaining_qty : Nat
  taker_qty : Nat
  maker_qty : Nat
  order_type : OrderType
  side : Side
  price : Nat
  status : OrderStatus
  time_in_force : TimeInForce
  post_only : Bool
  fills : List FillReport
  log : Option JournalLog
deriving DecidableEq

/-- `ExecutionReport::new(id, order_type, side, quantity, status,
time_in_force, price, post_only)`; market orders are always reported IOC. -/
def ExecutionReport.new (id : Nat) (order_type : OrderType) (side : Side)
    (quantity : Nat) (status : OrderStatus) (time_in_force : Option TimeInForce)
    (price : Option Nat) (post_only : Bool) : ExecutionReport :=
  { order_id := id
    orig_qty := quantity
    executed_qty := 0
    remaining_qty := quantity
    status := status
    taker_qty := 0
    maker_qty := 0
    order_type := order_type
    side := side
    price := price.getD 0
    time_in_force :=
      if order_type = OrderType.Market then TimeInForce.IOC
      else get_order_time_in_force time_in_force
    post_only := post_only
    fills := []
    log := none }

instance : DecidableEq (Except OrderBookError ExecutionReport) := fun a c => by
  cases a with
  | ok x =>
    cases c with
    | ok y =>
      exact decidable_of_iff (x = y)
        ⟨fun h => by rw [h], fun h => by injection h⟩
    | error f => exact Decidable.isFalse (fun h => by injection h)
  | error e =>
    cases c with
    | ok y => exact Decidable.isFalse (fun h => by injection h)
    | error f =>
      exact decidable_of_iff (e = f)
        ⟨fun h => by rw [h], fun h => by injection h⟩

/-- The order index: `HashMap<OrderId, LimitOrder>` as an association list. -/
abbrev OrdersMap := List (Nat × LimitOrder)

/-- One side of the book: `BTreeMap<u64, VecDeque<OrderId>>` as an association
list sorted by strictly ascending price; each queue lists ids front-first. -/
abbrev BookSide := List (Nat × List Nat)

/-- `HashMap::get` on the order index. -/
def lookupOrd : OrdersMap → Nat → Option LimitOrder
  | [], _ => none
  | (k, v) :: rest, id => if k = id then some v else lookupOrd rest id

/-- `HashMap::remove` on the order index. -/
def eraseOrd (m : OrdersMap) (id : Nat) : OrdersMap :=
  m.filter (fun p => p.1 ≠ id)

/-- `HashMap::insert` on the order index (keys stay unique). -/
def insertOrd (m : OrdersMap) (id : Nat) (o : LimitOrder) : OrdersMap :=
  (id, o) :: eraseOrd m id

/-- `BTreeMap::get` on a book side. -/
def sideGet : BookSide → Nat → Option (List Nat)
  | [], _ => none
  | (p, q) :: rest, price => if p = price then some q else sideGet rest price

/-- `BTreeMap::remove` of a whole price level. -/
def sideRemove (s : BookSide) (price : Nat) : BookSide :=
  s.filter (fun l => l.1 ≠ price)

/-- `entry(price).or_insert_with(VecDeque::new).push_back(id)`: append `id`
to the queue at `price`, creating the level at its sorted position. -/
def sidePush : BookSide → Nat → Nat → BookSide
  | [], price, id => [(price, [id])]
  | (p, q) :: rest, price, id =>
    if price < p then (price, [id]) :: (p, q) :: rest
    else if price = p then (p, q ++ [id]) :: rest
    else (p, q) :: sidePush rest price id

/-- Replace the queue stored at a present price level. -/
def sideSet : BookSide → Nat → List Nat → BookSide
  | [], _, _ => []
  | (p, q) :: rest, price, nq =>
    if p = price then (p, nq) :: rest else (p, q) :: sideSet rest price nq

/-- `OrderBook` state from `src/book.rs`. -/
structure OrderBook where
  last_op : Nat
  symbol : String
  next_order_id : Nat
  orders : OrdersMap
  asks : BookSide
  bids : BookSide
  journaling : Bool
deriving DecidableEq

/-- `OrderBookOptions` (journaling flag; snapshot/replay handled by the
builder and not needed for the embedded operations). -/
structure OrderBookOptions where
  journaling : Bool
deriving DecidableEq

/-- `OrderBook::new`. -/
def OrderBook.new (symbol : String) (opts : OrderBookOptions) : OrderBook :=
  { symbol := symbol
    last_op := 0
    next_order_id := 0
    orders := []
    asks := []
    bids := []
    journaling := opts.journaling }

/-- Result of `process_queue`: the mutated order index and queue, the
quantity still wanted, and the fills pushed (in order). -/
structure QueueResult where
  orders : OrdersMap
  queue : List Nat
  qtyLeft : Nat
  fills : List FillReport
deriving DecidableEq

/-- `OrderBook::process_queue` from `src/book.rs`: consume a price-level
queue front-first until the wanted quantity or the queue is exhausted. -/
def process_queue (orders : OrdersMap) : List Nat → Nat → QueueResult
  | [], qty => ⟨orders, [], qty, []⟩
  | hid :: rest, qty =>
    if qty = 0 then ⟨orders, hid :: rest, qty, []⟩
    else
      match lookupOrd orders hid with
      | none => ⟨orders, hid :: rest, qty, []⟩
      | some head =>
        if qty < head.remaining_qty then
          let head' := { head with
            remaining_qty := safe_sub head.remaining_qty qty
            executed_qty := safe_add head.executed_qty qty
            status := OrderStatus.PartiallyFilled }
          let fill : FillReport :=
            { order_id := head'.id, price := head'.price, quantity := qty
              status := head'.status }
          ⟨insertOrd (eraseOrd orders hid) hid head', hid :: rest, 0, [fill]⟩
        else
          let head' := { head with
            executed_qty := safe_add head.executed_qty head.remaining_qty
            remaining_qty := 0
            status := OrderStatus.Filled }
          let fill : FillReport :=
            { order_id := head'.id, price := head'.price
              quantity := head'.executed_qty, status := head'.status }
          let r := process_queue (eraseOrd orders hid) rest
            (safe_sub qty head.remaining_qty)
          ⟨r.orders, r.queue, r.qtyLeft, fill :: r.fills⟩

/-- Result of walking one side during matching: the mutated order index, the
side's surviving levels (in the traversal order), the quantity still wanted,
and the fills. -/
structure MatchResult where
  orders : OrdersMap
  levels : BookSide
  qtyLeft : Nat
  fills : List FillReport
deriving DecidableEq

/-- The `break` guard for the ask walk: some limit price is set and it is
below the level's price. -/
def askLimitBreak (limitPrice : Option Nat) (p : Nat) : Bool :=
  match limitPrice with
  | some lp => decide (lp < p)
  | none => false

/-- The `break` guard for the bid walk: some limit price is set and it is
above the level's price. -/
def bidLimitBreak (limitPrice : Option Nat) (p : Nat) : Bool :=
  match limitPrice with
  | some lp => decide (lp > p)
  | none => false

/-- Walk ask levels best-first (ascending traversal of the sorted list),
consuming each queue; emptied levels are dropped (the source collects and
removes them after the loop). `limitPrice` bounds buys: stop once
`limit_price < ask_price`. -/
def matchAsksGo (orders : OrdersMap) :
    BookSide → Nat → Option Nat → MatchResult
  | [], qty, _ => ⟨orders, [], qty, []⟩
  | (p, q) :: rest, qty, limitPrice =>
    if qty = 0 then ⟨orders, (p, q) :: rest, qty, []⟩
    else if askLimitBreak limitPrice p then
      ⟨orders, (p, q) :: rest, qty, []⟩
    else
      let r := process_queue orders q qty
      let m := matchAsksGo r.orders rest r.qtyLeft limitPrice
      { m with
        levels := if r.queue.isEmpty then m.levels else (p, r.queue) :: m.levels
        fills := r.fills ++ m.fills }

/-- Walk bid levels best-first: the source iterates the sorted map in
reverse, so this runs on the reversed list. Stop once
`limit_price > bid_price`. -/
def matchBidsGo (orders : OrdersMap) :
    BookSide → Nat → Option Nat → MatchResult
  | [], qty, _ => ⟨orders, [], qty, []⟩
  | (p, q) :: rest, qty, limitPrice =>
    if qty = 0 then ⟨orders, (p, q) :: rest, qty, []⟩
    else if bidLimitBreak limitPrice p then
      ⟨orders, (p, q) :: rest, qty, []⟩
    else
      let r := process_queue orders q qty
      let m := matchBidsGo r.orders rest r.qtyLeft limitPrice
      { m with
        levels := if r.queue.isEmpty then m.levels else (p, r.queue) :: m.levels
        fills := r.fills ++ m.fills }

/-- `OrderBook::match_with_asks`: the surviving levels stay in ascending
order. -/
def match_with_asks (orders : OrdersMap) (asks : BookSide) (qty : Nat)
    (limitPrice : Option Nat) : MatchResult :=
  matchAsksGo orders asks qty limitPrice

/-- `OrderBook::match_with_bids`: traverse descending, store ascending. -/
def match_with_bids (orders : OrdersMap) (bids : BookSide) (qty : Nat)
    (limitPrice : Option Nat) : MatchResult :=
  let r := matchBidsGo orders bids.reverse qty limitPrice
  { r with levels := r.levels.reverse }

/-- Cumulative resting quantity of a queue, resolved through the order index
(absent ids contribute nothing), accumulated with `safe_add`. -/
def queueCumQty (orders : OrdersMap) : List Nat → Nat → Nat
  | [], cum => cum
  | id :: rest, cum =>
    match lookupOrd orders id with
    | some o => queueCumQty orders rest (safe_add cum o.remaining_qty)
    | none => queueCumQty orders rest cum

/-- Loop body of `limit_buy_order_is_fillable`: accumulate ask volume
best-first while `price >= ask_price && cumulative_qty < quantity`. -/
def fillableGoBuy (orders : OrdersMap) (quantity price : Nat) :
    BookSide → Nat → Nat
  | [], cum => cum
  | (p, q) :: rest, cum =>
    if price ≥ p ∧ cum < quantity then
      fillableGoBuy orders quantity price rest (queueCumQty orders q cum)
    else cum

/-- Loop body of `limit_sell_order_is_fillable` (runs on the reversed bid
list): accumulate while `price <= bid_price && cumulative_qty < quantity`. -/
def fillableGoSell (orders : OrdersMap) (quantity price : Nat) :
    BookSide → Nat → Nat
  | [], cum => cum
  | (p, q) :: rest, cum =>
    if price ≤ p ∧ cum < quantity then
      fillableGoSell orders quantity price rest (queueCumQty orders q cum)
    else cum

/-- `OrderBook::limit_buy_order_is_fillable`. -/
def OrderBook.limit_buy_order_is_fillable (b : OrderBook)
    (quantity price : Nat) : Prop :=
  fillableGoBuy b.orders quantity price b.asks 0 ≥ quantity

/-- `OrderBook::limit_sell_order_is_fillable`. -/
def OrderBook.limit_sell_order_is_fillable (b : OrderBook)
    (quantity price : Nat) : Prop :=
  fillableGoSell b.orders quantity price b.bids.reverse 0 ≥ quantity

/-- `OrderBook::limit_order_is_fillable`. -/
def OrderBook.limit_order_is_fillable (b : OrderBook) (side : Side)
    (quantity price : Nat) : Prop :=
  match side with
  | Side.Buy => b.limit_buy_order_is_fillable quantity price
  | Side.Sell => b.limit_sell_order_is_fillable quantity price

instance (b : OrderBook) (quantity price : Nat) :
    Decidable (b.limit_buy_order_is_fillable quantity price) := by
  unfold OrderBook.limit_buy_order_is_fillable; infer_instance

instance (b : OrderBook) (quantity price : Nat) :
    Decidable (b.limit_sell_order_is_fillable quantity price) := by
  unfold OrderBook.limit_sell_order_is_fillable; infer_instance

instance (b : OrderBook) (side : Side) (quantity price : Nat) :
    Decidable (b.limit_order_is_fillable side quantity price) := by
  unfold OrderBook.limit_order_is_fillable; cases side <;> infer_instance

/-- `OrderBook::best_bid`: `bids.last_key_value()` (highest price). -/
def OrderBook.best_bid (b : OrderBook) : Option Nat :=
  b.bids.getLast?.map (·.1)

/-- `OrderBook::best_ask`: `asks.first_key_value()` (lowest price). -/
def OrderBook.best_ask (b : OrderBook) : Option Nat :=
  b.asks.head?.map (·.1)

/-- `OrderBook::validate_market_order`; `none` means valid. -/
def OrderBook.validate_market_order (b : OrderBook)
    (options : MarketOrderOptions) : Option OrderBookError :=
  if options.quantity = 0 then some (make_error ErrorType.InvalidQuantity)
  else if (options.side = Side.Buy ∧ b.asks = []) ∨
      (options.side = Side.Sell ∧ b.bids = []) then
    some (make_error ErrorType.OrderBookEmpty)
  else none

/-- The post-only crossing test of `validate_limit_order`: a buy crosses iff
`price >= best_ask`, a sell iff `price <= best_bid`; an empty opposite side
never crosses. -/
def OrderBook.crosses (b : OrderBook) (side : Side) (price : Nat) : Bool :=
  match side with
  | Side.Buy =>
    match b.asks.head? with
    | some l => decide (price ≥ l.1)
    | none => false
  | Side.Sell =>
    match b.bids.getLast? with
    | some l => decide (price ≤ l.1)
    | none => false

/-- `OrderBook::validate_limit_order`; `none` means valid. -/
def OrderBook.validate_limit_order (b : OrderBook)
    (options : LimitOrderOptions) : Option OrderBookError :=
  if options.quantity = 0 then some (make_error ErrorType.InvalidQuantity)
  else if options.price = 0 then some (make_error ErrorType.InvalidPrice)
  else if get_order_time_in_force options.time_in_force = TimeInForce.FOK ∧
      ¬ b.limit_order_is_fillable options.side options.quantity options.price then
    some (make_error ErrorType.OrderFOK)
  else if options.post_only.getD false ∧
      b.crosses options.side options.price then
    some (make_error ErrorType.OrderPostOnly)
  else none

/-- The result type of the fallible public operations: the returned
`Result<ExecutionReport>` paired with the post-state of the (`&mut self`)
book. -/
abbrev OpResult := Except OrderBookError ExecutionReport × OrderBook

/-- The `if self.journaling { self.last_op += 1; report.log = Some(...) }`
block that closes `market`, `limit` and `cancel`. -/
def journalTail (b : OrderBook) (report : ExecutionReport) (op : JournalOp)
    (o : OrderOptions) : OpResult :=
  if b.journaling then
    let lop := safe_add b.last_op 1
    (Except.ok { report with log := some { op_id := lop, ts := 0, op := op, o := o } },
      { b with last_op := lop })
  else
    (Except.ok report, b)

/-- `OrderBook::market` from `src/book.rs`. -/
def OrderBook.market (b : OrderBook) (options : MarketOrderOptions) :
    OpResult :=
  match b.validate_market_order options with
  | some err => (Except.error err, b)
  | none =>
    let id := b.next_order_id
    let b1 : OrderBook := { b with next_order_id := b.next_order_id + 1 }
    let order := MarketOrder.new id options
    let report := ExecutionReport.new order.id OrderType.Market order.side
      order.remaining_qty order.status none none false
    let m := match order.side with
      | Side.Buy => match_with_asks b1.orders b1.asks order.remaining_qty none
      | Side.Sell => match_with_bids b1.orders b1.bids order.remaining_qty none
    let b2 : OrderBook := match order.side with
      | Side.Buy => { b1 with orders := m.orders, asks := m.levels }
      | Side.Sell => { b1 with orders := m.orders, bids := m.levels }
    let remaining_qty := m.qtyLeft
    let executed_qty := safe_sub order.orig_qty remaining_qty
    let status := if remaining_qty > 0 then OrderStatus.PartiallyFilled
      else OrderStatus.Filled
    let report := { report with
      remaining_qty := remaining_qty
      executed_qty := executed_qty
      status := status
      taker_qty := executed_qty }
    journalTail b2 report JournalOp.Market (OrderOptions.Market options)

/-- `OrderBook::limit` from `src/book.rs`. -/
def OrderBook.limit (b : OrderBook) (options : LimitOrderOptions) :
    OpResult :=
  match b.validate_limit_order options with
  | some err => (Except.error err, b)
  | none =>
    let id := b.next_order_id
    let b1 : OrderBook := { b with next_order_id := b.next_order_id + 1 }
    let order0 := LimitOrder.new id options
    let report := ExecutionReport.new order0.id OrderType.Limit order0.side
      order0.orig_qty order0.status (some order0.time_in_force)
      (some order0.price) order0.post_only
    let m := match order0.side with
      | Side.Buy =>
        match_with_asks b1.orders b1.asks order0.remaining_qty (some order0.price)
      | Side.Sell =>
        match_with_bids b1.orders b1.bids order0.remaining_qty (some order0.price)
    let b2 : OrderBook := match order0.side with
      | Side.Buy => { b1 with orders := m.orders, asks := m.levels }
      | Side.Sell => { b1 with orders := m.orders, bids := m.levels }
    let order1 := { order0 with
      remaining_qty := m.qtyLeft
      executed_qty := safe_sub order0.orig_qty m.qtyLeft
      taker_qty := safe_sub order0.orig_qty m.qtyLeft
      maker_qty := m.qtyLeft }
    let disposed : LimitOrder × OrderBook :=
      if order1.remaining_qty > 0 then
        if order1.time_in_force = TimeInForce.IOC then
          ({ order1 with status := OrderStatus.Canceled }, b2)
        else
          let order2 := { order1 with status := OrderStatus.PartiallyFilled }
          let b3 : OrderBook :=
            { b2 with orders := insertOrd b2.orders order2.id order2 }
          if order2.side = Side.Buy then
            ( order2, { b3 with bids := sidePush b3.bids order2.price order2.id })
          else
            ( order2, { b3 with asks := sidePush b3.asks order2.price order2.id })
      else
        ({ order1 with status := OrderStatus.Filled }, b2)
    let order3 := disposed.1
    let b4 := disposed.2
    let report := { report with
      remaining_qty := order3.remaining_qty
      executed_qty := order3.executed_qty
      taker_qty := order3.taker_qty
      maker_qty := order3.maker_qty
      status := order3.status }
    journalTail b4 report JournalOp.Limit (OrderOptions.Limit options)

/-- Queue surgery performed by `OrderBook::cancel`: drop `id` from the queue
at `price` (first occurrence, if any) and drop the level once empty. -/
def removeFromSide (s : BookSide) (price id : Nat) : BookSide :=
  match sideGet s price with
  | none => s
  | some q =>
    let q' := q.erase id
    if q'.isEmpty then sideRemove s price else sideSet s price q'

/-- `OrderBook::cancel` from `src/book.rs`. -/
def OrderBook.cancel (b : OrderBook) (id : Nat) : OpResult :=
  match lookupOrd b.orders id with
  | none => (Except.error (make_error ErrorType.OrderNotFound), b)
  | some order =>
    let b1 : OrderBook := { b with orders := eraseOrd b.orders id }
    let b2 : OrderBook := match order.side with
      | Side.Buy => { b1 with bids := removeFromSide b1.bids order.price id }
      | Side.Sell => { b1 with asks := removeFromSide b1.asks order.price id }
    let order' := { order with status := OrderStatus.Canceled }
    let report : ExecutionReport :=
      { order_id := order'.id
        orig_qty := order'.orig_qty
        executed_qty := order'.executed_qty
        remaining_qty := order'.remaining_qty
        taker_qty := order'.taker_qty
        maker_qty := order'.maker_qty
        order_type := order'.order_type
        side := order'.side
        price := order'.price
        status := order'.status
        time_in_force := order'.time_in_force
        post_only := order'.post_only
        fills := []
        log := none }
    journalTail b2 report JournalOp.Cancel (OrderOptions.Cancel order'.id)

/-- `OrderBook::modify` from `src/book.rs`: cancel-and-replace with
journaling suppressed around the two internal operations. -/
def OrderBook.modify (b : OrderBook) (id : Nat)
    (price quantity : Option Nat) : OpResult :=
  let old_journaling := b.journaling
  let b0 : OrderBook := { b with journaling := false }
  match b0.cancel id with
  | (Except.error e, b1) =>
    (Except.error e, { b1 with journaling := old_journaling })
  | (Except.ok order, b1) =>
    let replaced : OpResult ⊕ Unit :=
      match price, quantity with
      | none, some q =>
        Sum.inl (b1.limit
          { side := order.side, quantity := q, price := order.price
            time_in_force := some order.time_in_force
            post_only := some order.post_only })
      | some p, none =>
        Sum.inl (b1.limit
          { side := order.side, quantity := order.remaining_qty, price := p
            time_in_force := some order.time_in_force
            post_only := some order.post_only })
      | some p, some q =>
        Sum.inl (b1.limit
          { side := order.side, quantity := q, price := p
            time_in_force := some order.time_in_force
            post_only := some order.post_only })
      | none, none => Sum.inr ()
    match replaced with
    | Sum.inr _ =>
      (Except.error (make_error ErrorType.InvalidPriceOrQuantity),
        { b1 with journaling := old_journaling })
    | Sum.inl (res, b2) =>
      let b3 : OrderBook := { b2 with journaling := old_journaling }
      match res with
      | Except.error e => (Except.error e, b3)
      | Except.ok r =>
        if b3.journaling then
          let lop := safe_add b3.last_op 1
          (Except.ok { r with
              log := some { op_id := lop, ts := 0, op := JournalOp.Modify
                            o := OrderOptions.Modify id price quantity } },
            { b3 with last_op := lop })
        else
          (Except.ok r, b3)

/-- Resting volume of one queue as summed by the depth/display helpers:
ids are resolved through the index (`filter_map`) and the remaining
quantities summed. -/
def queueVolume (orders : OrdersMap) (q : List Nat) : Nat :=
  (q.filterMap (fun id => (lookupOrd orders id).map (·.remaining_qty))).sum

/-- `Depth` from `src/book.rs`. -/
structure Depth where
  asks : List (Nat × Nat)
  bids : List (Nat × Nat)
deriving DecidableEq

/-- `OrderBook::get_asks_prices_and_volume`: `levels` only pre-sizes the
vector in the source; the loop itself visits every level. -/
def OrderBook.get_asks_prices_and_volume (b : OrderBook) (levels : Nat) :
    List (Nat × Nat) :=
  b.asks.map (fun l => (l.1, queueVolume b.orders l.2))

/-- `OrderBook::get_bids_prices_and_volume`: iterates the sorted map in
reverse (descending prices); `levels` only pre-sizes the vector. -/
def OrderBook.get_bids_prices_and_volume (b : OrderBook) (levels : Nat) :
    List (Nat × Nat) :=
  b.bids.reverse.map (fun l => (l.1, queueVolume b.orders l.2))

/-- `OrderBook::depth` from `src/book.rs` (default 100 levels). -/
def OrderBook.depth (b : OrderBook) (limit : Option Nat) : Depth :=
  let levels := limit.getD 100
  { asks := b.get_asks_prices_and_volume levels
    bids := b.get_bids_prices_and_volume levels }

/-- `OrderBook::get_order`. -/
def OrderBook.get_order (b : OrderBook) (id : Nat) :
    Except OrderBookError LimitOrder :=
  match lookupOrd b.orders id with
  | some o => Except.ok o
  | none => Except.error (make_error ErrorType.OrderNotFound)

/-- `OrderBook::get_orders_at_price`. -/
def OrderBook.get_orders_at_price (b : OrderBook) (price : Nat)
    (side : Side) : List LimitOrder :=
  let queue := match side with
    | Side.Buy => sideGet b.bids price
    | Side.Sell => sideGet b.asks price
  match queue with
  | some q => q.filterMap (fun id => lookupOrd b.orders id)
  | none => []

/-- `Snapshot` from `src/journal.rs`. -/
structure Snapshot where
  orders : OrdersMap
  bids : BookSide
  asks : BookSide
  last_op : Nat
  next_order_id : Nat
  ts : Int
deriving DecidableEq

/-- `OrderBook::snapshot` (the timestamp is the injected clock, embedded as
`0`). -/
def OrderBook.snapshot (b : OrderBook) : Snapshot :=
  { orders := b.orders
    bids := b.bids
    asks := b.asks
    last_op := b.last_op
    next_order_id := b.next_order_id
    ts := 0 }

/-- `OrderBook::restore_snapshot`. -/
def OrderBook.restore_snapshot (b : OrderBook) (s : Snapshot) : OrderBook :=
  { b with
    orders := s.orders
    bids := s.bids
    asks := s.asks
    last_op := s.last_op
    next_order_id := s.next_order_id }

/-- A public state-changing command (the operations a caller can submit). -/
inductive Op where
  | market (o : MarketOrderOptions)
  | limit (o : LimitOrderOptions)
  | cancel (id : Nat)
  | modify (id : Nat) (price quantity : Option Nat)
deriving DecidableEq

/-- Dispatch one public command. -/
def runOp (b : OrderBook) : Op → OpResult
  | Op.market o => b.market o
  | Op.limit o => b.limit o
  | Op.cancel id => b.cancel id
  | Op.modify id price quantity => b.modify id price quantity

/-- Run a sequence of public commands, threading the book state. -/
def runOps (b : OrderBook) : List Op → OrderBook
  | [] => b
  | op :: rest => runOps (runOp b op).2 rest

/-- All order ids resting in the queues of one side, best-level data flattened
in storage order. -/
def sideIds (s : BookSide) : List Nat :=
  (s.map Prod.snd).flatten

/-- A state reachable from a freshly constructed book by public commands. -/
inductive Reachable : OrderBook → Prop where
  | base (symbol : String) (opts : OrderBookOptions) :
      Reachable (OrderBook.new symbol opts)
  | step (b : OrderBook) (op : Op) : Reachable b → Reachable (runOp b op).2

/-! ### Basic lemmas about the embedded data structures -/

theorem lookup_eraseOrd (m : OrdersMap) (id x : Nat) :
    lookupOrd (eraseOrd m id) x = if x = id then none else lookupOrd m x := by
  induction m with
  | nil => simp [eraseOrd, lookupOrd]
  | cons hd tl ih =>
    rcases hd with ⟨k, v⟩
    by_cases hk : k = id
    · have hdrop : eraseOrd ((k, v) :: tl) id = eraseOrd tl id := by
        simp [eraseOrd, List.filter_cons, hk]
      rw [hdrop, ih]
      by_cases hx : x = id
      · simp [hx]
      · rw [if_neg hx, if_neg hx]
        simp [lookupOrd, show ¬ (k = x) from fun h => hx (h ▸ hk)]
    · have hkeep : eraseOrd ((k, v) :: tl) id = (k, v) :: eraseOrd tl id := by
        simp [eraseOrd, List.filter_cons, hk]
      rw [hkeep]
      by_cases hkx : k = x
      · subst hkx
        simp [lookupOrd, show ¬ (k = id) from hk]
      · simp [lookupOrd, hkx, ih]

theorem lookup_insertOrd (m : OrdersMap) (id : Nat) (o : LimitOrder) (x : Nat) :
    lookupOrd (insertOrd m id o) x = if id = x then some o else lookupOrd m x := by
  rcases eq_or_ne id x with h | h
  · simp [insertOrd, lookupOrd, h]
  · simp [insertOrd, lookupOrd, h, lookup_eraseOrd, Ne.symm h]

theorem lookup_eraseOrd_self (m : OrdersMap) (id : Nat) :
    lookupOrd (eraseOrd m id) id = none := by
  simp [lookup_eraseOrd]

/-! ### C9 — snapshot round-trip -/

/-- C9: for every book state `B`, restoring `snapshot(B)` into a book yields
a book observationally equal to `B`: same depth at every limit, same
`get_order` for every id, same best bid and best ask. -/
theorem snapshot_roundtrip_observational (b c : OrderBook) :
    (∀ limit, (c.restore_snapshot b.snapshot).depth limit = b.depth limit) ∧
    (∀ id, (c.restore_snapshot b.snapshot).get_order id = b.get_order id) ∧
    (c.restore_snapshot b.snapshot).best_bid = b.best_bid ∧
    (c.restore_snapshot b.snapshot).best_ask = b.best_ask := by
  refine ⟨fun limit => ?_, fun id => ?_, ?_, ?_⟩ <;>
    simp [OrderBook.restore_snapshot, OrderBook.snapshot, OrderBook.depth,
      OrderBook.get_order, OrderBook.best_bid, OrderBook.best_ask,
      OrderBook.get_asks_prices_and_volume, OrderBook.get_bids_prices_and_volume]

/-! ### C4 — depth ignores the level limit -/

/-- C4: `depth` is documented to cap the number of levels per side at the
requested `limit` (default 100), but the loops in
`get_asks_prices_and_volume` / `get_bids_prices_and_volume` never consult
`levels`: with two resting ask levels, `depth(Some(1))` returns both. -/
theorem depth_ignores_level_limit :
    ((((OrderBook.new "BTCUSD" { journaling := false }).limit
        { side := Side.Sell, quantity := 5, price := 10
          time_in_force := none, post_only := none }).2.limit
        { side := Side.Sell, quantity := 7, price := 20
          time_in_force := none, post_only := none }).2.depth (some 1)).asks
      = [(10, 5), (20, 7)] := by
  decide

/-! ### C5 — fill quantity on full consumption of a partially filled head -/

/-- C5: a resting ask of 5 at 1100 is first hit for 2 (leaving
`remaining_qty = 3`, `executed_qty = 2`); a second aggressor for 3 fully
consumes it. The quantity consumed in this match is 3, but the emitted
`FillReport` carries `executed_qty` after the update, i.e. 5. -/
theorem full_consume_fill_reports_total_executed :
    (lookupOrd ((((OrderBook.new "BTCUSD" { journaling := false }).limit
        { side := Side.Sell, quantity := 5, price := 1100
          time_in_force := none, post_only := none }).2.market
        { side := Side.Buy, quantity := 2 }).2).orders 0).map
          (fun o => o.remaining_qty) = some 3 ∧
    (match_with_asks
        ((((OrderBook.new "BTCUSD" { journaling := false }).limit
          { side := Side.Sell, quantity := 5, price := 1100
            time_in_force := none, post_only := none }).2.market
          { side := Side.Buy, quantity := 2 }).2).orders
        ((((OrderBook.new "BTCUSD" { journaling := false }).limit
          { side := Side.Sell, quantity := 5, price := 1100
            time_in_force := none, post_only := none }).2.market
          { side := Side.Buy, quantity := 2 }).2).asks
        3 none).fills.map (fun f => f.quantity) = [5] ∧
    (match_with_asks
        ((((OrderBook.new "BTCUSD" { journaling := false }).limit
          { side := Side.Sell, quantity := 5, price := 1100
            time_in_force := none, post_only := none }).2.market
          { side := Side.Buy, quantity := 2 }).2).orders
        ((((OrderBook.new "BTCUSD" { journaling := false }).limit
          { side := Side.Sell, quantity := 5, price := 1100
            time_in_force := none, post_only := none }).2.market
          { side := Side.Buy, quantity := 2 }).2).asks
        3 none).qtyLeft = 0 := by
  refine ⟨by decide, by decide, by decide⟩

/-! ### C2 — rejected submissions leave the book unchanged -/

theorem journalTail_fst (b : OrderBook) (r : ExecutionReport) (op : JournalOp)
    (o : OrderOptions) :
    (journalTail b r op o).1 = Except.ok
      (if b.journaling then
        { r with log := some { op_id := safe_add b.last_op 1, ts := 0
                               op := op, o := o } }
      else r) := by
  unfold journalTail
  split <;> simp_all

/-- C2: every market or limit submission that returns an error leaves the
book state — order index, bid and ask queues, next order id and `last_op` —
exactly as it was before the call. -/
theorem rejected_submission_leaves_book_unchanged (b : OrderBook)
    (mo : MarketOrderOptions) (lo : LimitOrderOptions) :
    (∀ e, (b.market mo).1 = Except.error e → (b.market mo).2 = b) ∧
    (∀ e, (b.limit lo).1 = Except.error e → (b.limit lo).2 = b) := by
  constructor
  · intro e h
    unfold OrderBook.market at h ⊢
    cases hv : b.validate_market_order mo with
    | some err => simp
    | none => rw [hv] at h; simp [journalTail_fst] at h
  · intro e h
    unfold OrderBook.limit at h ⊢
    cases hv : b.validate_limit_order lo with
    | some err => simp
    | none => rw [hv] at h; simp [journalTail_fst] at h

/-- Closed instance of `rejected_submission_leaves_book_unchanged`: a
zero-quantity market order and a zero-price limit order are both rejected
and leave a one-order book untouched. -/
theorem rejected_submission_leaves_book_unchanged_witness :
    (((OrderBook.new "BTCUSD" { journaling := false }).limit
        { side := Side.Sell, quantity := 5, price := 1100
          time_in_force := none, post_only := none }).2.market
        { side := Side.Buy, quantity := 0 }).1
      = Except.error (make_error ErrorType.InvalidQuantity) ∧
    (((OrderBook.new "BTCUSD" { journaling := false }).limit
        { side := Side.Sell, quantity := 5, price := 1100
          time_in_force := none, post_only := none }).2.limit
        { side := Side.Buy, quantity := 3, price := 0
          time_in_force := none, post_only := none }).1
      = Except.error (make_error ErrorType.InvalidPrice) ∧
    (((OrderBook.new "BTCUSD" { journaling := false }).limit
        { side := Side.Sell, quantity := 5, price := 1100
          time_in_force := none, post_only := none }).2.market
        { side := Side.Buy, quantity := 0 }).2
      = ((OrderBook.new "BTCUSD" { journaling := false }).limit
        { side := Side.Sell, quantity := 5, price := 1100
          time_in_force := none, post_only := none }).2 ∧
    (((OrderBook.new "BTCUSD" { journaling := false }).limit
        { side := Side.Sell, quantity := 5, price := 1100
          time_in_force := none, post_only := none }).2.limit
        { side := Side.Buy, quantity := 3, price := 0
          time_in_force := none, post_only := none }).2
      = ((OrderBook.new "BTCUSD" { journaling := false }).limit
        { side := Side.Sell, quantity := 5, price := 1100
          time_in_force := none, post_only := none }).2 :=
  ⟨by decide, by decide,
    (rejected_submission_leaves_book_unchanged _ _
      { side := Side.Buy, quantity := 3, price := 0
        time_in_force := none, post_only := none }).1
      (make_error ErrorType.InvalidQuantity) (by decide),
    (rejected_submission_leaves_book_unchanged _
      { side := Side.Buy, quantity := 0 } _).2
      (make_error ErrorType.InvalidPrice) (by decide)⟩

/-! ### C3 — `modify(id, None, None)` -/

/-- C3 counterexample: on a book holding one resting bid (id 0),
`modify(0, None, None)` does return `InvalidPriceOrQuantity` (1103) — but the
book is *not* unchanged: the internal cancel has already run, so the order is
gone from the index and from its queue. On an id that is not resting the
call returns `OrderNotFound` (1110), not 1103. -/
theorem modify_none_none_counterexample :
    (((OrderBook.new "BTCUSD" { journaling := false }).limit
        { side := Side.Buy, quantity := 5, price := 1000
          time_in_force := none, post_only := none }).2.modify 0 none none).1
      = Except.error (make_error ErrorType.InvalidPriceOrQuantity) ∧
    lookupOrd (((OrderBook.new "BTCUSD" { journaling := false }).limit
        { side := Side.Buy, quantity := 5, price := 1000
          time_in_force := none, post_only := none }).2.modify 0 none none).2.orders 0
      = none ∧
    sideGet (((OrderBook.new "BTCUSD" { journaling := false }).limit
        { side := Side.Buy, quantity := 5, price := 1000
          time_in_force := none, post_only := none }).2.modify 0 none none).2.bids 1000
      = none ∧
    ((OrderBook.new "BTCUSD" { journaling := false }).modify 0 none none).1
      = Except.error (make_error ErrorType.OrderNotFound) := by
  refine ⟨by decide, by decide, by decide, by decide⟩

/-- C3 (amended): `modify(id, None, None)` on a resting id returns
`InvalidPriceOrQuantity` (1103) but leaves the book in the post-cancel state
(the order has been removed from the index and its queue, journaling flag
restored); on an id that is not resting it returns `OrderNotFound` and the
book is unchanged. -/
theorem modify_none_none_amended (b : OrderBook) (id : Nat) :
    (∀ o, lookupOrd b.orders id = some o →
      (b.modify id none none).1
          = Except.error (make_error ErrorType.InvalidPriceOrQuantity) ∧
      (b.modify id none none).2
          = { (({ b with journaling := false }).cancel id).2 with
              journaling := b.journaling } ∧
      lookupOrd (b.modify id none none).2.orders id = none) ∧
    (lookupOrd b.orders id = none →
      (b.modify id none none).1 = Except.error (make_error ErrorType.OrderNotFound) ∧
      (b.modify id none none).2 = b) := by
  constructor
  · intro o ho
    cases hs : o.side <;>
      simp [OrderBook.modify, OrderBook.cancel, ho, hs, journalTail,
        lookup_eraseOrd_self]
  · intro ho
    simp [OrderBook.modify, OrderBook.cancel, ho]

/-- Closed instance of `modify_none_none_amended` at a book holding one
resting bid with id 0. -/
theorem modify_none_none_amended_witness :
    lookupOrd ((OrderBook.new "BTCUSD" { journaling := false }).limit
        { side := Side.Buy, quantity := 5, price := 1000
          time_in_force := none, post_only := none }).2.orders 0
      = some { id := 0, side := Side.Buy, executed_qty := 0, remaining_qty := 5
               orig_qty := 5, price := 1000, order_type := OrderType.Limit
               time := 0, time_in_force := TimeInForce.GTC, post_only := false
               taker_qty := 0, maker_qty := 5
               status := OrderStatus.PartiallyFilled } ∧
    ((((OrderBook.new "BTCUSD" { journaling := false }).limit
        { side := Side.Buy, quantity := 5, price := 1000
          time_in_force := none, post_only := none }).2).modify 0 none none).1
      = Except.error (make_error ErrorType.InvalidPriceOrQuantity) ∧
    lookupOrd ((((OrderBook.new "BTCUSD" { journaling := false }).limit
        { side := Side.Buy, quantity := 5, price := 1000
          time_in_force := none, post_only := none }).2).modify 0 none none).2.orders 0
      = none :=
  have h := (modify_none_none_amended ((OrderBook.new "BTCUSD"
      { journaling := false }).limit
      { side := Side.Buy, quantity := 5, price := 1000
        time_in_force := none, post_only := none }).2 0).1
    { id := 0, side := Side.Buy, executed_qty := 0, remaining_qty := 5
      orig_qty := 5, price := 1000, order_type := OrderType.Limit
      time := 0, time_in_force := TimeInForce.GTC, post_only := false
      taker_qty := 0, maker_qty := 5
      status := OrderStatus.PartiallyFilled } (by decide)
  ⟨by decide, h.1, h.2.2⟩

/-! ### C8 — a successful modify journals exactly one `Modify` entry -/

theorem journalTail_snd (b : OrderBook) (r : ExecutionReport) (op : JournalOp)
    (o : OrderOptions) :
    (journalTail b r op o).2 =
      if b.journaling then { b with last_op := safe_add b.last_op 1 } else b := by
  unfold journalTail
  split <;> rfl

/-- Every `cancel` either fails leaving the book untouched or ends in the
journaling tail on a book whose `last_op`, `journaling`, `symbol` and
`next_order_id` fields are those of the caller, with a log-free report. -/
theorem cancel_shape (b : OrderBook) (id : Nat) :
    (b.cancel id = (Except.error (make_error ErrorType.OrderNotFound), b)) ∨
    (∃ r b' oo, b.cancel id = journalTail b' r JournalOp.Cancel oo ∧
      b'.journaling = b.journaling ∧ b'.last_op = b.last_op ∧
      b'.symbol = b.symbol ∧ b'.next_order_id = b.next_order_id ∧
      r.log = none) := by
  unfold OrderBook.cancel
  cases hv : lookupOrd b.orders id with
  | none => exact Or.inl rfl
  | some o =>
    refine Or.inr ⟨_, _, _, rfl, ?_, ?_, ?_, ?_, rfl⟩ <;> cases o.side <;> rfl

/-- Every `limit` either fails leaving the book untouched or ends in the
journaling tail; the tail's book keeps the caller's `last_op`, `journaling`
and `symbol` and has consumed exactly one order id. -/
theorem limit_shape (b : OrderBook) (o : LimitOrderOptions) :
    (∃ e, b.limit o = (Except.error e, b)) ∨
    (∃ r b', b.limit o = journalTail b' r JournalOp.Limit (OrderOptions.Limit o) ∧
      b'.journaling = b.journaling ∧ b'.last_op = b.last_op ∧
      b'.symbol = b.symbol ∧ b'.next_order_id = b.next_order_id + 1 ∧
      r.log = none) := by
  unfold OrderBook.limit
  cases hv : b.validate_limit_order o with
  | some e => exact Or.inl ⟨e, rfl⟩
  | none =>
    refine Or.inr ⟨_, _, rfl, ?_, ?_, ?_, ?_, ?_⟩ <;>
      (repeat' (first | rfl | split | dsimp only))

theorem cancel_post_fields (b : OrderBook) (id : Nat) :
    (b.cancel id).2.journaling = b.journaling ∧
    (b.journaling = false → (b.cancel id).2.last_op = b.last_op) := by
  rcases cancel_shape b id with h | ⟨r, b', oo, heq, hj, hl, _, _, _⟩
  · rw [h]; exact ⟨rfl, fun _ => rfl⟩
  · rw [heq, journalTail_snd, hj]
    refine ⟨?_, ?_⟩
    · split <;> first | rfl | exact hj
    · intro hf; simp [hf, hl]

theorem limit_post_fields (b : OrderBook) (o : LimitOrderOptions) :
    (b.limit o).2.journaling = b.journaling ∧
    (b.journaling = false → (b.limit o).2.last_op = b.last_op) := by
  rcases limit_shape b o with ⟨e, h⟩ | ⟨r, b', heq, hj, hl, _, _, _⟩
  · rw [h]; exact ⟨rfl, fun _ => rfl⟩
  · rw [heq, journalTail_snd, hj]
    refine ⟨?_, ?_⟩
    · split <;> first | rfl | exact hj
    · intro hf; simp [hf, hl]

/-- C8: with journaling enabled, a successful
`modify(id, price?, quantity?)` bumps `last_op` exactly once and its report
carries exactly one journal entry — `op = Modify` with payload
`{id, price, quantity}`; the internal cancel and limit run with journaling
suppressed and contribute neither entries nor `last_op` increments. -/
theorem modify_journals_single_modify_entry (b : OrderBook) (id : Nat)
    (price quantity : Option Nat) (r : ExecutionReport)
    (hj : b.journaling = true)
    (hok : (b.modify id price quantity).1 = Except.ok r) :
    r.log = some { op_id := safe_add b.last_op 1, ts := 0, op := JournalOp.Modify
                   o := OrderOptions.Modify id price quantity } ∧
    (b.modify id price quantity).2.last_op = safe_add b.last_op 1 ∧
    (b.modify id price quantity).2.journaling = true := by
  unfold OrderBook.modify at hok ⊢
  dsimp only at hok ⊢
  have hb1 := cancel_post_fields ({ b with journaling := false } : OrderBook) id
  rcases hc : ({ b with journaling := false } : OrderBook).cancel id with ⟨res1, b1⟩
  rw [hc] at hok hb1
  cases res1 with
  | error e => simp at hok
  | ok order =>
    dsimp only at hok hb1 ⊢
    have hb1j : b1.journaling = false := hb1.1
    have hb1l : b1.last_op = b.last_op := hb1.2 rfl
    rcases price with _ | p <;> rcases quantity with _ | q
    · simp at hok
    · -- price none, quantity some q
      try dsimp only at hok ⊢
      have hb2 := limit_post_fields b1
        { side := order.side, quantity := q, price := order.price
          time_in_force := some order.time_in_force
          post_only := some order.post_only }
      rcases hl : b1.limit
          { side := order.side, quantity := q, price := order.price
            time_in_force := some order.time_in_force
            post_only := some order.post_only } with ⟨res2, b2⟩
      rw [hl] at hok hb2
      cases res2 with
      | error e => simp at hok
      | ok r0 =>
        have hb2l : b2.last_op = b.last_op := by rw [hb2.2 hb1j, hb1l]
        simp only [hj] at hok ⊢
        try dsimp only at hok ⊢
        simp only [hj, if_true, Except.ok.injEq, reduceIte] at hok
        subst hok
        refine ⟨by simp [hb2l], by simp [hb2l], rfl⟩
    · -- price some p, quantity none
      try dsimp only at hok ⊢
      have hb2 := limit_post_fields b1
        { side := order.side, quantity := order.remaining_qty, price := p
          time_in_force := some order.time_in_force
          post_only := some order.post_only }
      rcases hl : b1.limit
          { side := order.side, quantity := order.remaining_qty, price := p
            time_in_force := some order.time_in_force
            post_only := some order.post_only } with ⟨res2, b2⟩
      rw [hl] at hok hb2
      cases res2 with
      | error e => simp at hok
      | ok r0 =>
        have hb2l : b2.last_op = b.last_op := by rw [hb2.2 hb1j, hb1l]
        simp only [hj] at hok ⊢
        try dsimp only at hok ⊢
        simp only [hj, if_true, Except.ok.injEq, reduceIte] at hok
        subst hok
        refine ⟨by simp [hb2l], by simp [hb2l], rfl⟩
    · -- price some p and quantity some q
      try dsimp only at hok ⊢
      have hb2 := limit_post_fields b1
        { side := order.side, quantity := q, price := p
          time_in_force := some order.time_in_force
          post_only := some order.post_only }
      rcases hl : b1.limit
          { side := order.side, quantity := q, price := p
            time_in_force := some order.time_in_force
            post_only := some order.post_only } with ⟨res2, b2⟩
      rw [hl] at hok hb2
      cases res2 with
      | error e => simp at hok
      | ok r0 =>
        have hb2l : b2.last_op = b.last_op := by rw [hb2.2 hb1j, hb1l]
        simp only [hj] at hok ⊢
        try dsimp only at hok ⊢
        simp only [hj, if_true, Except.ok.injEq, reduceIte] at hok
        subst hok
        refine ⟨by simp [hb2l], by simp [hb2l], rfl⟩

/-- Closed instance of `modify_journals_single_modify_entry`: a journaling
book holding one bid (id 0, `last_op = 1` after the journaled limit) is
modified to price 900; the report carries the single `Modify` entry with
`op_id = 2` and `last_op` becomes 2. -/
theorem modify_journals_single_modify_entry_witness :
    ((OrderBook.new "BTCUSD" { journaling := true }).limit
        { side := Side.Buy, quantity := 5, price := 1000
          time_in_force := none, post_only := none }).2.journaling = true ∧
    (((OrderBook.new "BTCUSD" { journaling := true }).limit
        { side := Side.Buy, quantity := 5, price := 1000
          time_in_force := none, post_only := none }).2.modify 0 (some 900) none).1
      = Except.ok
        { order_id := 1, orig_qty := 5, executed_qty := 0, remaining_qty := 5
          taker_qty := 0, maker_qty := 5, order_type := OrderType.Limit
          side := Side.Buy, price := 900, status := OrderStatus.PartiallyFilled
          time_in_force := TimeInForce.GTC, post_only := false, fills := []
          log := some { op_id := 2, ts := 0, op := JournalOp.Modify
                        o := OrderOptions.Modify 0 (some 900) none } } ∧
    (((OrderBook.new "BTCUSD" { journaling := true }).limit
        { side := Side.Buy, quantity := 5, price := 1000
          time_in_force := none, post_only := none }).2.modify 0 (some 900) none).2.last_op
      = 2 :=
  ⟨by decide, by decide,
    (modify_journals_single_modify_entry
      ((OrderBook.new "BTCUSD" { journaling := true }).limit
        { side := Side.Buy, quantity := 5, price := 1000
          time_in_force := none, post_only := none }).2 0 (some 900) none
      { order_id := 1, orig_qty := 5, executed_qty := 0, remaining_qty := 5
        taker_qty := 0, maker_qty := 5, order_type := OrderType.Limit
        side := Side.Buy, price := 900, status := OrderStatus.PartiallyFilled
        time_in_force := TimeInForce.GTC, post_only := false, fills := []
        log := some { op_id := 2, ts := 0, op := JournalOp.Modify
                      o := OrderOptions.Modify 0 (some 900) none } }
      (by decide) (by decide)).2.1⟩

/-! ### C1 — IOC residuals are canceled and never rested -/

theorem process_queue_lookup_none (q : List Nat) (orders : OrdersMap)
    (qty x : Nat) (h : lookupOrd orders x = none) :
    lookupOrd (process_queue orders q qty).orders x = none := by
  induction q generalizing orders qty with
  | nil => simpa [process_queue]
  | cons hid rest ih =>
    unfold process_queue
    by_cases hq : qty = 0
    · simpa [hq]
    · simp only [hq, if_false, reduceIte]
      cases hl : lookupOrd orders hid with
      | none => simpa
      | some head =>
        have hne : hid ≠ x := fun he => by rw [he, h] at hl; cases hl
        try dsimp only
        split
        · simpa [lookup_insertOrd, lookup_eraseOrd, hne, Ne.symm hne]
        · exact ih _ _ (by simpa [lookup_eraseOrd, Ne.symm hne])

theorem process_queue_queue_mem (q : List Nat) (orders : OrdersMap)
    (qty x : Nat) (h : x ∈ (process_queue orders q qty).queue) : x ∈ q := by
  induction q generalizing orders qty with
  | nil => simpa [process_queue] using h
  | cons hid rest ih =>
    unfold process_queue at h
    by_cases hq : qty = 0
    · simpa [hq] using h
    · simp only [hq, if_false, reduceIte] at h
      cases hl : lookupOrd orders hid with
      | none => rw [hl] at h; simpa using h
      | some head =>
        rw [hl] at h
        dsimp only at h
        split at h
        · simpa using h
        · exact List.mem_cons_of_mem _ (ih _ _ h)

theorem matchAsksGo_lookup_none (asks : BookSide) (orders : OrdersMap)
    (qty : Nat) (lp : Option Nat) (x : Nat) (h : lookupOrd orders x = none) :
    lookupOrd (matchAsksGo orders asks qty lp).orders x = none := by
  induction asks generalizing orders qty with
  | nil => simpa [matchAsksGo]
  | cons l rest ih =>
    rcases l with ⟨p, q⟩
    unfold matchAsksGo
    split
    · simpa
    · split
      · simpa
      · exact ih _ _ (process_queue_lookup_none q orders qty x h)

theorem matchBidsGo_lookup_none (bids : BookSide) (orders : OrdersMap)
    (qty : Nat) (lp : Option Nat) (x : Nat) (h : lookupOrd orders x = none) :
    lookupOrd (matchBidsGo orders bids qty lp).orders x = none := by
  induction bids generalizing orders qty with
  | nil => simpa [matchBidsGo]
  | cons l rest ih =>
    rcases l with ⟨p, q⟩
    unfold matchBidsGo
    split
    · simpa
    · split
      · simpa
      · exact ih _ _ (process_queue_lookup_none q orders qty x h)

theorem mem_sideIds_cons (p : Nat) (q : List Nat) (s : BookSide) (x : Nat) :
    x ∈ sideIds ((p, q) :: s) ↔ x ∈ q ∨ x ∈ sideIds s := by
  simp [sideIds]

theorem matchAsksGo_sideIds_mem (asks : BookSide) (orders : OrdersMap)
    (qty : Nat) (lp : Option Nat) (x : Nat)
    (h : x ∈ sideIds (matchAsksGo orders asks qty lp).levels) :
    x ∈ sideIds asks := by
  induction asks generalizing orders qty with
  | nil => simpa [matchAsksGo] using h
  | cons l rest ih =>
    rcases l with ⟨p, q⟩
    unfold matchAsksGo at h
    split at h
    · exact h
    · split at h
      · exact h
      · dsimp only at h
        rw [mem_sideIds_cons]
        by_cases hq : (process_queue orders q qty).queue.isEmpty
        · simp only [hq, if_true, reduceIte] at h
          exact Or.inr (ih _ _ h)
        · simp only [hq, if_false, Bool.false_eq_true, reduceIte,
            mem_sideIds_cons] at h
          rcases h with h | h
          · exact Or.inl (process_queue_queue_mem q orders qty x h)
          · exact Or.inr (ih _ _ h)

theorem matchBidsGo_sideIds_mem (bids : BookSide) (orders : OrdersMap)
    (qty : Nat) (lp : Option Nat) (x : Nat)
    (h : x ∈ sideIds (matchBidsGo orders bids qty lp).levels) :
    x ∈ sideIds bids := by
  induction bids generalizing orders qty with
  | nil => simpa [matchBidsGo] using h
  | cons l rest ih =>
    rcases l with ⟨p, q⟩
    unfold matchBidsGo at h
    split at h
    · exact h
    · split at h
      · exact h
      · dsimp only at h
        rw [mem_sideIds_cons]
        by_cases hq : (process_queue orders q qty).queue.isEmpty
        · simp only [hq, if_true, reduceIte] at h
          exact Or.inr (ih _ _ h)
        · simp only [hq, if_false, Bool.false_eq_true, reduceIte,
            mem_sideIds_cons] at h
          rcases h with h | h
          · exact Or.inl (process_queue_queue_mem q orders qty x h)
          · exact Or.inr (ih _ _ h)

theorem mem_sideIds_reverse (s : BookSide) (x : Nat) :
    x ∈ sideIds s.reverse ↔ x ∈ sideIds s := by
  simp [sideIds]

theorem match_with_asks_fresh (orders : OrdersMap) (asks : BookSide)
    (qty : Nat) (lp : Option Nat) (x : Nat)
    (ho : lookupOrd orders x = none) (hq : x ∉ sideIds asks) :
    lookupOrd (match_with_asks orders asks qty lp).orders x = none ∧
    x ∉ sideIds (match_with_asks orders asks qty lp).levels := by
  refine ⟨matchAsksGo_lookup_none asks orders qty lp x ho, fun hmem => ?_⟩
  exact hq (matchAsksGo_sideIds_mem asks orders qty lp x hmem)

theorem match_with_bids_fresh (orders : OrdersMap) (bids : BookSide)
    (qty : Nat) (lp : Option Nat) (x : Nat)
    (ho : lookupOrd orders x = none) (hq : x ∉ sideIds bids) :
    lookupOrd (match_with_bids orders bids qty lp).orders x = none ∧
    x ∉ sideIds (match_with_bids orders bids qty lp).levels := by
  unfold match_with_bids
  refine ⟨matchBidsGo_lookup_none bids.reverse orders qty lp x ho, fun hmem => ?_⟩
  rw [mem_sideIds_reverse] at hmem
  exact hq ((mem_sideIds_reverse bids x).mp
    (matchBidsGo_sideIds_mem bids.reverse orders qty lp x hmem))

theorem journalTail_orders (b : OrderBook) (r : ExecutionReport)
    (op : JournalOp) (o : OrderOptions) :
    (journalTail b r op o).2.orders = b.orders := by
  rw [journalTail_snd]; split <;> rfl

theorem journalTail_asks (b : OrderBook) (r : ExecutionReport)
    (op : JournalOp) (o : OrderOptions) :
    (journalTail b r op o).2.asks = b.asks := by
  rw [journalTail_snd]; split <;> rfl

theorem journalTail_bids (b : OrderBook) (r : ExecutionReport)
    (op : JournalOp) (o : OrderOptions) :
    (journalTail b r op o).2.bids = b.bids := by
  rw [journalTail_snd]; split <;> rfl

/-- C1: a limit order submitted with `time_in_force = IOC` that passes
validation and still has remaining quantity after matching reports status
`Canceled`, and the residual is not rested: the (freshly assigned) order id
is absent from the order index and from every bid and ask queue after the
call. -/
theorem ioc_residual_canceled_not_rested (b : OrderBook)
    (o : LimitOrderOptions) (r : ExecutionReport)
    (htif : o.time_in_force = some TimeInForce.IOC)
    (hok : (b.limit o).1 = Except.ok r)
    (hrem : 0 < r.remaining_qty)
    (hfo : lookupOrd b.orders b.next_order_id = none)
    (hfa : b.next_order_id ∉ sideIds b.asks)
    (hfb : b.next_order_id ∉ sideIds b.bids) :
    r.order_id = b.next_order_id ∧
    r.status = OrderStatus.Canceled ∧
    lookupOrd (b.limit o).2.orders b.next_order_id = none ∧
    b.next_order_id ∉ sideIds (b.limit o).2.asks ∧
    b.next_order_id ∉ sideIds (b.limit o).2.bids := by
  unfold OrderBook.limit at hok ⊢
  cases hv : b.validate_limit_order o with
  | some e => rw [hv] at hok; simp at hok
  | none =>
    rw [hv] at hok
    dsimp only at hok ⊢
    rw [journalTail_fst] at hok
    simp only [LimitOrder.new, get_order_time_in_force, htif, Option.getD_some] at hok ⊢
    cases hs : o.side
    case Buy =>
      rw [hs] at hok
      dsimp only at hok ⊢
      simp only [reduceIte] at hok ⊢
      by_cases hq : (match_with_asks b.orders b.asks o.quantity
        (some o.price)).qtyLeft > 0
      · simp only [hq, if_true, reduceIte] at hok ⊢
        split at hok <;>
        · simp only [Except.ok.injEq] at hok
          subst hok
          refine ⟨rfl, rfl, ?_, ?_, ?_⟩
          · rw [journalTail_orders]
            exact (match_with_asks_fresh b.orders b.asks o.quantity
              (some o.price) b.next_order_id hfo hfa).1
          · rw [journalTail_asks]
            exact (match_with_asks_fresh b.orders b.asks o.quantity
              (some o.price) b.next_order_id hfo hfa).2
          · rw [journalTail_bids]
            exact hfb
      · exfalso
        simp only [hq, if_false, reduceIte] at hok
        split at hok <;>
        · simp only [Except.ok.injEq] at hok
          subst hok
          simp at hrem
          omega
    case Sell =>
      rw [hs] at hok
      dsimp only at hok ⊢
      simp only [reduceIte] at hok ⊢
      by_cases hq : (match_with_bids b.orders b.bids o.quantity
        (some o.price)).qtyLeft > 0
      · simp only [hq, if_true, reduceIte] at hok ⊢
        split at hok <;>
        · simp only [Except.ok.injEq] at hok
          subst hok
          refine ⟨rfl, rfl, ?_, ?_, ?_⟩
          · rw [journalTail_orders]
            exact (match_with_bids_fresh b.orders b.bids o.quantity
              (some o.price) b.next_order_id hfo hfb).1
          · rw [journalTail_asks]
            exact hfa
          · rw [journalTail_bids]
            exact (match_with_bids_fresh b.orders b.bids o.quantity
              (some o.price) b.next_order_id hfo hfb).2
      · exfalso
        simp only [hq, if_false, reduceIte] at hok
        split at hok <;>
        · simp only [Except.ok.injEq] at hok
          subst hok
          simp at hrem
          omega

/-- Closed instance of `ioc_residual_canceled_not_rested`: a book with a
resting ask of 3 at 1100 receives an IOC buy of 5 at 1100; the report is
`Canceled` with residual 2 and id 1 rests nowhere. -/
theorem ioc_residual_canceled_not_rested_witness :
    (((OrderBook.new "BTCUSD" { journaling := false }).limit
        { side := Side.Sell, quantity := 3, price := 1100
          time_in_force := none, post_only := none }).2.limit
        { side := Side.Buy, quantity := 5, price := 1100
          time_in_force := some TimeInForce.IOC, post_only := none }).1
      = Except.ok
        { order_id := 1, orig_qty := 5, executed_qty := 3, remaining_qty := 2
          taker_qty := 3, maker_qty := 2, order_type := OrderType.Limit
          side := Side.Buy, price := 1100, status := OrderStatus.Canceled
          time_in_force := TimeInForce.IOC, post_only := false, fills := []
          log := none } ∧
    lookupOrd (((OrderBook.new "BTCUSD" { journaling := false }).limit
        { side := Side.Sell, quantity := 3, price := 1100
          time_in_force := none, post_only := none }).2.limit
        { side := Side.Buy, quantity := 5, price := 1100
          time_in_force := some TimeInForce.IOC, post_only := none }).2.orders 1
      = none ∧
    1 ∉ sideIds (((OrderBook.new "BTCUSD" { journaling := false }).limit
        { side := Side.Sell, quantity := 3, price := 1100
          time_in_force := none, post_only := none }).2.limit
        { side := Side.Buy, quantity := 5, price := 1100
          time_in_force := some TimeInForce.IOC, post_only := none }).2.asks ∧
    1 ∉ sideIds (((OrderBook.new "BTCUSD" { journaling := false }).limit
        { side := Side.Sell, quantity := 3, price := 1100
          time_in_force := none, post_only := none }).2.limit
        { side := Side.Buy, quantity := 5, price := 1100
          time_in_force := some TimeInForce.IOC, post_only := none }).2.bids :=
  have h := ioc_residual_canceled_not_rested
    ((OrderBook.new "BTCUSD" { journaling := false }).limit
      { side := Side.Sell, quantity := 3, price := 1100
        time_in_force := none, post_only := none }).2
    { side := Side.Buy, quantity := 5, price := 1100
      time_in_force := some TimeInForce.IOC, post_only := none }
    { order_id := 1, orig_qty := 5, executed_qty := 3, remaining_qty := 2
      taker_qty := 3, maker_qty := 2, order_type := OrderType.Limit
      side := Side.Buy, price := 1100, status := OrderStatus.Canceled
      time_in_force := TimeInForce.IOC, post_only := false, fills := []
      log := none }
    (by decide) (by decide) (by decide) (by decide) (by decide) (by decide)
  ⟨by decide, h.2.2.1, h.2.2.2.1, h.2.2.2.2⟩

/-! ### C6 — FOK all-or-nothing -/

/-- A side is coherent with the order index when its queued ids are globally
distinct and each resolves in the index. -/
def sideWF (orders : OrdersMap) (s : BookSide) : Prop :=
  (sideIds s).Nodup ∧ ∀ id ∈ sideIds s, (lookupOrd orders id).isSome

instance (orders : OrdersMap) (s : BookSide) : Decidable (sideWF orders s) := by
  unfold sideWF; infer_instance

/-- Total resting volume on the ask levels an aggressive buy at `price` may
consume (the best-first prefix of levels priced at most `price`). -/
def volWithinAsk (orders : OrdersMap) (price : Nat) : BookSide → Nat
  | [] => 0
  | (p, q) :: rest =>
    if p ≤ price then queueVolume orders q + volWithinAsk orders price rest
    else 0

/-- Total resting volume on the bid levels (descending traversal) an
aggressive sell at `price` may consume. -/
def volWithinBid (orders : OrdersMap) (price : Nat) : BookSide → Nat
  | [] => 0
  | (p, q) :: rest =>
    if price ≤ p then queueVolume orders q + volWithinBid orders price rest
    else 0

theorem queueVolume_congr (q : List Nat) (m m' : OrdersMap)
    (h : ∀ id ∈ q, lookupOrd m' id = lookupOrd m id) :
    queueVolume m' q = queueVolume m q := by
  induction q with
  | nil => rfl
  | cons hid rest ih =>
    have hh := h hid (List.mem_cons_self _ _)
    simp only [queueVolume, List.filterMap_cons] at *
    rw [hh]
    cases lookupOrd m hid <;>
      simp [ih fun id hm => h id (List.mem_cons_of_mem _ hm)]

theorem process_queue_lookup_not_mem (q : List Nat) (orders : OrdersMap)
    (qty x : Nat) (hx : x ∉ q) :
    lookupOrd (process_queue orders q qty).orders x = lookupOrd orders x := by
  induction q generalizing orders qty with
  | nil => simp [process_queue]
  | cons hid rest ih =>
    have hxh : x ≠ hid := fun he => hx (he ▸ List.mem_cons_self _ _)
    have hxr : x ∉ rest := fun hm => hx (List.mem_cons_of_mem _ hm)
    unfold process_queue
    by_cases hq : qty = 0
    · simp [hq]
    · simp only [hq, if_false, reduceIte]
      cases hl : lookupOrd orders hid with
      | none => rfl
      | some head =>
        try dsimp only
        split
        · simp [lookup_insertOrd, lookup_eraseOrd, hxh, Ne.symm hxh]
        · rw [ih _ _ hxr]
          simp [lookup_eraseOrd, hxh]

theorem process_queue_qtyLeft (q : List Nat) (orders : OrdersMap) (qty : Nat)
    (hnd : q.Nodup) (hres : ∀ id ∈ q, (lookupOrd orders id).isSome) :
    (process_queue orders q qty).qtyLeft = qty - queueVolume orders q := by
  induction q generalizing orders qty with
  | nil => simp [process_queue, queueVolume]
  | cons hid rest ih =>
    obtain ⟨hh, hndr⟩ := List.nodup_cons.mp hnd
    obtain ⟨head, hl⟩ := Option.isSome_iff_exists.mp
      (hres hid (List.mem_cons_self _ _))
    have hvol : queueVolume orders (hid :: rest) =
        head.remaining_qty + queueVolume orders rest := by
      simp [queueVolume, List.filterMap_cons, hl]
    unfold process_queue
    by_cases hq : qty = 0
    · simp [hq]
    · simp only [hq, if_false, reduceIte, hl]
      try dsimp only
      split
      · rw [hvol]
        show (0 : Nat) = qty - (head.remaining_qty + queueVolume orders rest)
        omega
      · have hcongr : ∀ id ∈ rest,
            lookupOrd (eraseOrd orders hid) id = lookupOrd orders id := by
          intro id hm
          have : id ≠ hid := fun he => hh (he ▸ hm)
          simp [lookup_eraseOrd, this]
        show (process_queue (eraseOrd orders hid) rest
          (safe_sub qty head.remaining_qty)).qtyLeft =
            qty - queueVolume orders (hid :: rest)
        rw [ih (eraseOrd orders hid) _ hndr
          (fun id hm => by rw [hcongr id hm]; exact hres id (List.mem_cons_of_mem _ hm))]
        rw [queueVolume_congr rest orders (eraseOrd orders hid) hcongr, hvol]
        simp only [safe_sub]
        omega

theorem volWithinAsk_congr (asks : BookSide) (price : Nat) (m m' : OrdersMap)
    (h : ∀ id ∈ sideIds asks, lookupOrd m' id = lookupOrd m id) :
    volWithinAsk m' price asks = volWithinAsk m price asks := by
  induction asks with
  | nil => rfl
  | cons l rest ih =>
    rcases l with ⟨p, q⟩
    unfold volWithinAsk
    split
    · rw [queueVolume_congr q m m'
        (fun id hm => h id ((mem_sideIds_cons p q rest id).mpr (Or.inl hm)))]
      rw [ih (fun id hm => h id ((mem_sideIds_cons p q rest id).mpr (Or.inr hm)))]
    · rfl

theorem volWithinBid_congr (bids : BookSide) (price : Nat) (m m' : OrdersMap)
    (h : ∀ id ∈ sideIds bids, lookupOrd m' id = lookupOrd m id) :
    volWithinBid m' price bids = volWithinBid m price bids := by
  induction bids with
  | nil => rfl
  | cons l rest ih =>
    rcases l with ⟨p, q⟩
    unfold volWithinBid
    split
    · rw [queueVolume_congr q m m'
        (fun id hm => h id ((mem_sideIds_cons p q rest id).mpr (Or.inl hm)))]
      rw [ih (fun id hm => h id ((mem_sideIds_cons p q rest id).mpr (Or.inr hm)))]
    · rfl

theorem matchAsksGo_qtyLeft (asks : BookSide) (orders : OrdersMap)
    (qty price : Nat) (hnd : (sideIds asks).Nodup)
    (hres : ∀ id ∈ sideIds asks, (lookupOrd orders id).isSome) :
    (matchAsksGo orders asks qty (some price)).qtyLeft =
      qty - volWithinAsk orders price asks := by
  induction asks generalizing orders qty with
  | nil => simp [matchAsksGo, volWithinAsk]
  | cons l rest ih =>
    rcases l with ⟨p, q⟩
    have hsplit : sideIds ((p, q) :: rest) = q ++ sideIds rest := by
      simp [sideIds]
    rw [hsplit] at hnd hres
    obtain ⟨hndq, hndr, hdisj⟩ := List.nodup_append.mp hnd
    have hresq : ∀ id ∈ q, (lookupOrd orders id).isSome := fun id hm =>
      hres id (List.mem_append_left _ hm)
    have hresr : ∀ id ∈ sideIds rest, (lookupOrd orders id).isSome := fun id hm =>
      hres id (List.mem_append_right _ hm)
    unfold matchAsksGo
    by_cases hq0 : qty = 0
    · simp [hq0]
    · simp only [hq0, if_false, reduceIte]
      by_cases hbrk : askLimitBreak (some price) p
      · have hple : ¬ (p ≤ price) := by
          simp [askLimitBreak] at hbrk; omega
        simp [hbrk, volWithinAsk, hple]
      · have hple : p ≤ price := by
          simp [askLimitBreak] at hbrk; omega
        simp only [hbrk, if_false, Bool.false_eq_true, reduceIte]
        try dsimp only
        have hcongr : ∀ id ∈ sideIds rest,
            lookupOrd (process_queue orders q qty).orders id = lookupOrd orders id :=
          fun id hm => process_queue_lookup_not_mem q orders qty id
            (fun hq => hdisj hq hm)
        rw [ih (process_queue orders q qty).orders
            (process_queue orders q qty).qtyLeft hndr
            (fun id hm => by rw [hcongr id hm]; exact hresr id hm)]
        rw [volWithinAsk_congr rest price orders _ hcongr]
        rw [process_queue_qtyLeft q orders qty hndq hresq]
        rw [volWithinAsk]
        simp only [hple, if_true, reduceIte]
        omega

theorem matchBidsGo_qtyLeft (bids : BookSide) (orders : OrdersMap)
    (qty price : Nat) (hnd : (sideIds bids).Nodup)
    (hres : ∀ id ∈ sideIds bids, (lookupOrd orders id).isSome) :
    (matchBidsGo orders bids qty (some price)).qtyLeft =
      qty - volWithinBid orders price bids := by
  induction bids generalizing orders qty with
  | nil => simp [matchBidsGo, volWithinBid]
  | cons l rest ih =>
    rcases l with ⟨p, q⟩
    have hsplit : sideIds ((p, q) :: rest) = q ++ sideIds rest := by
      simp [sideIds]
    rw [hsplit] at hnd hres
    obtain ⟨hndq, hndr, hdisj⟩ := List.nodup_append.mp hnd
    have hresq : ∀ id ∈ q, (lookupOrd orders id).isSome := fun id hm =>
      hres id (List.mem_append_left _ hm)
    have hresr : ∀ id ∈ sideIds rest, (lookupOrd orders id).isSome := fun id hm =>
      hres id (List.mem_append_right _ hm)
    unfold matchBidsGo
    by_cases hq0 : qty = 0
    · simp [hq0]
    · simp only [hq0, if_false, reduceIte]
      by_cases hbrk : bidLimitBreak (some price) p
      · have hple : ¬ (price ≤ p) := by
          simp [bidLimitBreak] at hbrk; omega
        simp [hbrk, volWithinBid, hple]
      · have hple : price ≤ p := by
          simp [bidLimitBreak] at hbrk; omega
        simp only [hbrk, if_false, Bool.false_eq_true, reduceIte]
        try dsimp only
        have hcongr : ∀ id ∈ sideIds rest,
            lookupOrd (process_queue orders q qty).orders id = lookupOrd orders id :=
          fun id hm => process_queue_lookup_not_mem q orders qty id
            (fun hq => hdisj hq hm)
        rw [ih (process_queue orders q qty).orders
            (process_queue orders q qty).qtyLeft hndr
            (fun id hm => by rw [hcongr id hm]; exact hresr id hm)]
        rw [volWithinBid_congr rest price orders _ hcongr]
        rw [process_queue_qtyLeft q orders qty hndq hresq]
        rw [volWithinBid]
        simp only [hple, if_true, reduceIte]
        omega

theorem queueCumQty_le (q : List Nat) (orders : OrdersMap) (cum : Nat) :
    queueCumQty orders q cum ≤ cum + queueVolume orders q := by
  induction q generalizing cum with
  | nil => simp [queueCumQty, queueVolume]
  | cons hid rest ih =>
    unfold queueCumQty
    cases hl : lookupOrd orders hid with
    | none =>
      calc queueCumQty orders rest cum ≤ cum + queueVolume orders rest := ih cum
        _ ≤ cum + queueVolume orders (hid :: rest) := by
          simp [queueVolume, List.filterMap_cons, hl]
    | some o =>
      calc queueCumQty orders rest (safe_add cum o.remaining_qty)
          ≤ safe_add cum o.remaining_qty + queueVolume orders rest := ih _
        _ ≤ (cum + o.remaining_qty) + queueVolume orders rest := by
            have : safe_add cum o.remaining_qty ≤ cum + o.remaining_qty :=
              min_le_left _ _
            omega
        _ = cum + queueVolume orders (hid :: rest) := by
            simp [queueVolume, List.filterMap_cons, hl]; omega

theorem fillableGoBuy_le (asks : BookSide) (orders : OrdersMap)
    (quantity price cum : Nat) :
    fillableGoBuy orders quantity price asks cum ≤
      cum + volWithinAsk orders price asks := by
  induction asks generalizing cum with
  | nil => simp [fillableGoBuy, volWithinAsk]
  | cons l rest ih =>
    rcases l with ⟨p, q⟩
    unfold fillableGoBuy
    split
    · rename_i hcond
      calc fillableGoBuy orders quantity price rest (queueCumQty orders q cum)
          ≤ queueCumQty orders q cum + volWithinAsk orders price rest := ih _
        _ ≤ (cum + queueVolume orders q) + volWithinAsk orders price rest := by
            have := queueCumQty_le q orders cum
            omega
        _ ≤ cum + volWithinAsk orders price ((p, q) :: rest) := by
            rw [volWithinAsk]
            simp only [hcond.1, if_true, reduceIte]
            omega
    · omega

theorem fillableGoSell_le (bids : BookSide) (orders : OrdersMap)
    (quantity price cum : Nat) :
    fillableGoSell orders quantity price bids cum ≤
      cum + volWithinBid orders price bids := by
  induction bids generalizing cum with
  | nil => simp [fillableGoSell, volWithinBid]
  | cons l rest ih =>
    rcases l with ⟨p, q⟩
    unfold fillableGoSell
    split
    · rename_i hcond
      calc fillableGoSell orders quantity price rest (queueCumQty orders q cum)
          ≤ queueCumQty orders q cum + volWithinBid orders price rest := ih _
        _ ≤ (cum + queueVolume orders q) + volWithinBid orders price rest := by
            have := queueCumQty_le q orders cum
            omega
        _ ≤ cum + volWithinBid orders price ((p, q) :: rest) := by
            rw [volWithinBid]
            simp only [hcond.1, if_true, reduceIte]
            omega
    · omega

theorem sideIds_reverse_perm (s : BookSide) :
    List.Perm (sideIds s.reverse) (sideIds s) := by
  unfold sideIds
  rw [List.map_reverse]
  exact (List.reverse_perm _).flatten

/-- C6 counterexample: a FOK limit order with quantity 0 is rejected with
`InvalidQuantity` (1101), not `OrderFOK` (1106): quantity and price
validation run before the FOK feasibility scan. -/
theorem fok_rejection_error_counterexample :
    ((OrderBook.new "BTCUSD" { journaling := false }).limit
      { side := Side.Buy, quantity := 0, price := 10
        time_in_force := some TimeInForce.FOK, post_only := none }).1
      = Except.error (make_error ErrorType.InvalidQuantity) ∧
    make_error ErrorType.InvalidQuantity ≠ make_error ErrorType.OrderFOK := by
  refine ⟨by decide, by decide⟩

/-- C6 (amended): on a coherent book, an accepted FOK limit order reports
`Filled` with `remaining_qty = 0`; a rejected one leaves the book unchanged,
and when quantity and price are nonzero and post-only is not set the
rejection error is exactly `OrderFOK` (1106). (Zero quantity/price or a
crossing post-only flag reject with their own earlier errors.) -/
theorem fok_all_or_nothing (b : OrderBook) (o : LimitOrderOptions)
    (htif : o.time_in_force = some TimeInForce.FOK)
    (hWFa : sideWF b.orders b.asks) (hWFb : sideWF b.orders b.bids) :
    (∀ r, (b.limit o).1 = Except.ok r →
      r.status = OrderStatus.Filled ∧ r.remaining_qty = 0) ∧
    (∀ e, (b.limit o).1 = Except.error e →
      (b.limit o).2 = b ∧
      (o.quantity ≠ 0 → o.price ≠ 0 → o.post_only.getD false = false →
        e = make_error ErrorType.OrderFOK)) := by
  constructor
  · intro r hok
    unfold OrderBook.limit at hok
    cases hv : b.validate_limit_order o with
    | some e => rw [hv] at hok; simp at hok
    | none =>
      have hfill : b.limit_order_is_fillable o.side o.quantity o.price := by
        by_contra hnf
        unfold OrderBook.validate_limit_order at hv
        by_cases h1 : o.quantity = 0
        · simp [h1] at hv
        · by_cases h2 : o.price = 0
          · simp [h1, h2] at hv
          · rw [htif] at hv
            simp [h1, h2, get_order_time_in_force, hnf] at hv
      rw [hv] at hok
      dsimp only at hok
      rw [journalTail_fst] at hok
      simp only [LimitOrder.new, get_order_time_in_force, htif,
        Option.getD_some] at hok
      cases hs : o.side
      case Buy =>
        have hfb : fillableGoBuy b.orders o.quantity o.price b.asks 0 ≥
            o.quantity := by
          have h := hfill
          unfold OrderBook.limit_order_is_fillable at h
          rw [hs] at h
          exact h
        have hle := fillableGoBuy_le b.asks b.orders o.quantity o.price 0
        have hql : (match_with_asks b.orders b.asks o.quantity
            (some o.price)).qtyLeft = 0 := by
          unfold match_with_asks
          rw [matchAsksGo_qtyLeft b.asks b.orders o.quantity o.price
            hWFa.1 hWFa.2]
          omega
        rw [hs] at hok
        dsimp only at hok
        simp only [hql, Nat.lt_irrefl, gt_iff_lt, if_false, reduceIte] at hok
        split at hok <;>
        · simp only [Except.ok.injEq] at hok
          subst hok
          exact ⟨rfl, rfl⟩
      case Sell =>
        have hfb : fillableGoSell b.orders o.quantity o.price b.bids.reverse 0 ≥
            o.quantity := by
          have h := hfill
          unfold OrderBook.limit_order_is_fillable at h
          rw [hs] at h
          exact h
        have hle := fillableGoSell_le b.bids.reverse b.orders o.quantity o.price 0
        have hql : (match_with_bids b.orders b.bids o.quantity
            (some o.price)).qtyLeft = 0 := by
          unfold match_with_bids
          have hperm := sideIds_reverse_perm b.bids
          rw [matchBidsGo_qtyLeft b.bids.reverse b.orders o.quantity o.price
            (hperm.nodup_iff.mpr hWFb.1)
            (fun id hm => hWFb.2 id (hperm.mem_iff.mp hm))]
          omega
        rw [hs] at hok
        dsimp only at hok
        simp only [hql, Nat.lt_irrefl, gt_iff_lt, if_false, reduceIte] at hok
        split at hok <;>
        · simp only [Except.ok.injEq] at hok
          subst hok
          exact ⟨rfl, rfl⟩
  · intro e herr
    unfold OrderBook.limit at herr ⊢
    cases hv : b.validate_limit_order o with
    | none => rw [hv] at herr; simp [journalTail_fst] at herr
    | some e' =>
      rw [hv] at herr
      simp only [Except.error.injEq] at herr
      subst herr
      refine ⟨by simp, ?_⟩
      intro h1 h2 h3
      unfold OrderBook.validate_limit_order at hv
      rw [htif] at hv
      simp only [h1, h2, h3, get_order_time_in_force, Option.getD_some,
        if_false, reduceIte, false_and, Bool.false_eq_true] at hv
      split at hv
      · simp only [Option.some.injEq] at hv
        exact hv.symm
      · cases hv

/-- Closed instance of `fok_all_or_nothing` on a book with asks
`{1100: 5, 1150: 5}`: a FOK buy of 10 at 1150 is accepted and `Filled` with
no residue; a FOK buy of 11 at 1150 is rejected with `OrderFOK` and the book
is unchanged. -/
theorem fok_all_or_nothing_witness :
    sideWF (((OrderBook.new "BTCUSD" { journaling := false }).limit
        { side := Side.Sell, quantity := 5, price := 1100
          time_in_force := none, post_only := none }).2.limit
        { side := Side.Sell, quantity := 5, price := 1150
          time_in_force := none, post_only := none }).2.orders
      (((OrderBook.new "BTCUSD" { journaling := false }).limit
        { side := Side.Sell, quantity := 5, price := 1100
          time_in_force := none, post_only := none }).2.limit
        { side := Side.Sell, quantity := 5, price := 1150
          time_in_force := none, post_only := none }).2.asks ∧
    ((((OrderBook.new "BTCUSD" { journaling := false }).limit
        { side := Side.Sell, quantity := 5, price := 1100
          time_in_force := none, post_only := none }).2.limit
        { side := Side.Sell, quantity := 5, price := 1150
          time_in_force := none, post_only := none }).2.limit
        { side := Side.Buy, quantity := 10, price := 1150
          time_in_force := some TimeInForce.FOK, post_only := none }).1
      = Except.ok
        { order_id := 2, orig_qty := 10, executed_qty := 10, remaining_qty := 0
          taker_qty := 10, maker_qty := 0, order_type := OrderType.Limit
          side := Side.Buy, price := 1150, status := OrderStatus.Filled
          time_in_force := TimeInForce.FOK, post_only := false, fills := []
          log := none } ∧
    OrderStatus.Filled = OrderStatus.Filled ∧
    ((((OrderBook.new "BTCUSD" { journaling := false }).limit
        { side := Side.Sell, quantity := 5, price := 1100
          time_in_force := none, post_only := none }).2.limit
        { side := Side.Sell, quantity := 5, price := 1150
          time_in_force := none, post_only := none }).2.limit
        { side := Side.Buy, quantity := 11, price := 1150
          time_in_force := some TimeInForce.FOK, post_only := none }).1
      = Except.error (make_error ErrorType.OrderFOK) ∧
    ((((OrderBook.new "BTCUSD" { journaling := false }).limit
        { side := Side.Sell, quantity := 5, price := 1100
          time_in_force := none, post_only := none }).2.limit
        { side := Side.Sell, quantity := 5, price := 1150
          time_in_force := none, post_only := none }).2.limit
        { side := Side.Buy, quantity := 11, price := 1150
          time_in_force := some TimeInForce.FOK, post_only := none }).2
      = (((OrderBook.new "BTCUSD" { journaling := false }).limit
        { side := Side.Sell, quantity := 5, price := 1100
          time_in_force := none, post_only := none }).2.limit
        { side := Side.Sell, quantity := 5, price := 1150
          time_in_force := none, post_only := none }).2 :=
  ⟨by decide, by decide, rfl, by decide,
    ((fok_all_or_nothing
      (((OrderBook.new "BTCUSD" { journaling := false }).limit
        { side := Side.Sell, quantity := 5, price := 1100
          time_in_force := none, post_only := none }).2.limit
        { side := Side.Sell, quantity := 5, price := 1150
          time_in_force := none, post_only := none }).2
      { side := Side.Buy, quantity := 11, price := 1150
        time_in_force := some TimeInForce.FOK, post_only := none }
      (by decide) (by decide) (by decide)).2
      (make_error ErrorType.OrderFOK) (by decide)).1⟩

/-! ### C10 — journaling only affects `last_op` and the emitted logs -/

/-- Equality of everything a matching decision can depend on: the order
index, both sides, the id counter and the symbol — everything but
`journaling` and `last_op`. -/
def coreEq (a c : OrderBook) : Prop :=
  a.orders = c.orders ∧ a.asks = c.asks ∧ a.bids = c.bids ∧
  a.next_order_id = c.next_order_id ∧ a.symbol = c.symbol

/-- Strip the journal entry from an operation result. -/
def eraseLog :
    Except OrderBookError ExecutionReport → Except OrderBookError ExecutionReport
  | Except.ok r => Except.ok { r with log := none }
  | Except.error e => Except.error e

/-- A successful result carries no journal entry. -/
def okLogNone : Except OrderBookError ExecutionReport → Prop
  | Except.ok r => r.log = none
  | Except.error _ => True

theorem eq_of_eraseLog (x y : Except OrderBookError ExecutionReport)
    (h : eraseLog x = eraseLog y) (hx : okLogNone x) (hy : okLogNone y) :
    x = y := by
  cases x with
  | error e => cases y with
    | error f => simpa [eraseLog] using h
    | ok r => simp [eraseLog] at h
  | ok r => cases y with
    | error f => simp [eraseLog] at h
    | ok s =>
      simp only [eraseLog, Except.ok.injEq] at h ⊢
      cases r
      cases s
      simp only [okLogNone] at hx hy
      simp_all

theorem market_congr (a c : OrderBook) (o : MarketOrderOptions)
    (h : coreEq a c) :
    coreEq (a.market o).2 (c.market o).2 ∧
    eraseLog (a.market o).1 = eraseLog (c.market o).1 ∧
    (a.market o).2.journaling = a.journaling ∧
    (c.market o).2.journaling = c.journaling ∧
    (a.journaling = false → okLogNone (a.market o).1) ∧
    (c.journaling = false → okLogNone (c.market o).1) := by
  obtain ⟨lo₁, sy₁, ni₁, or₁, as₁, bi₁, jo₁⟩ := a
  obtain ⟨lo₂, sy₂, ni₂, or₂, as₂, bi₂, jo₂⟩ := c
  obtain ⟨ho, ha, hb, hn, hs⟩ := h
  dsimp only at ho ha hb hn hs
  subst ho ha hb hn hs
  obtain ⟨side, qty⟩ := o
  have hvc : OrderBook.validate_market_order
      ⟨lo₂, sy₁, ni₁, or₁, as₁, bi₁, jo₂⟩ ⟨side, qty⟩
      = OrderBook.validate_market_order
      ⟨lo₁, sy₁, ni₁, or₁, as₁, bi₁, jo₁⟩ ⟨side, qty⟩ := rfl
  unfold OrderBook.market
  rw [hvc]
  cases hv : OrderBook.validate_market_order
      ⟨lo₁, sy₁, ni₁, or₁, as₁, bi₁, jo₁⟩ ⟨side, qty⟩ with
  | some e =>
    refine ⟨⟨rfl, rfl, rfl, rfl, rfl⟩, rfl, rfl, rfl, ?_, ?_⟩ <;>
      (intro hh; trivial)
  | none =>
    cases side <;> cases jo₁ <;> cases jo₂ <;>
      refine ⟨⟨rfl, rfl, rfl, rfl, rfl⟩, rfl, rfl, rfl, ?_, ?_⟩ <;>
      (intro hh; first | rfl | cases hh)

theorem limit_congr (a c : OrderBook) (o : LimitOrderOptions)
    (h : coreEq a c) :
    coreEq (a.limit o).2 (c.limit o).2 ∧
    eraseLog (a.limit o).1 = eraseLog (c.limit o).1 ∧
    (a.limit o).2.journaling = a.journaling ∧
    (c.limit o).2.journaling = c.journaling ∧
    (a.journaling = false → okLogNone (a.limit o).1) ∧
    (c.journaling = false → okLogNone (c.limit o).1) := by
  obtain ⟨lo₁, sy₁, ni₁, or₁, as₁, bi₁, jo₁⟩ := a
  obtain ⟨lo₂, sy₂, ni₂, or₂, as₂, bi₂, jo₂⟩ := c
  obtain ⟨ho, ha, hb, hn, hs⟩ := h
  dsimp only at ho ha hb hn hs
  subst ho ha hb hn hs
  obtain ⟨side, qty, price, tif, po⟩ := o
  have hvc : OrderBook.validate_limit_order
      ⟨lo₂, sy₁, ni₁, or₁, as₁, bi₁, jo₂⟩ ⟨side, qty, price, tif, po⟩
      = OrderBook.validate_limit_order
      ⟨lo₁, sy₁, ni₁, or₁, as₁, bi₁, jo₁⟩ ⟨side, qty, price, tif, po⟩ := rfl
  unfold OrderBook.limit
  rw [hvc]
  cases hv : OrderBook.validate_limit_order
      ⟨lo₁, sy₁, ni₁, or₁, as₁, bi₁, jo₁⟩ ⟨side, qty, price, tif, po⟩ with
  | some e =>
    refine ⟨⟨rfl, rfl, rfl, rfl, rfl⟩, rfl, rfl, rfl, ?_, ?_⟩ <;>
      (intro hh; trivial)
  | none =>
    dsimp only
    simp only [LimitOrder.new]
    cases side
    case Buy =>
      by_cases hq : (match_with_asks or₁ as₁ qty (some price)).qtyLeft > 0 <;>
        by_cases ht : get_order_time_in_force tif = TimeInForce.IOC <;>
        simp only [hq, ht, if_true, if_false, reduceIte] <;>
        cases jo₁ <;> cases jo₂ <;>
        refine ⟨⟨rfl, rfl, rfl, rfl, rfl⟩, rfl, rfl, rfl, ?_, ?_⟩ <;>
        (intro hh; first | rfl | cases hh)
    case Sell =>
      by_cases hq : (match_with_bids or₁ bi₁ qty (some price)).qtyLeft > 0 <;>
        by_cases ht : get_order_time_in_force tif = TimeInForce.IOC <;>
        simp only [hq, ht, if_true, if_false, reduceIte] <;>
        cases jo₁ <;> cases jo₂ <;>
        refine ⟨⟨rfl, rfl, rfl, rfl, rfl⟩, rfl, rfl, rfl, ?_, ?_⟩ <;>
        (intro hh; first | rfl | cases hh)

theorem cancel_congr (a c : OrderBook) (id : Nat) (h : coreEq a c) :
    coreEq (a.cancel id).2 (c.cancel id).2 ∧
    eraseLog (a.cancel id).1 = eraseLog (c.cancel id).1 ∧
    (a.journaling = false → okLogNone (a.cancel id).1) ∧
    (c.journaling = false → okLogNone (c.cancel id).1) := by
  obtain ⟨lo₁, sy₁, ni₁, or₁, as₁, bi₁, jo₁⟩ := a
  obtain ⟨lo₂, sy₂, ni₂, or₂, as₂, bi₂, jo₂⟩ := c
  obtain ⟨ho, ha, hb, hn, hs⟩ := h
  dsimp only at ho ha hb hn hs
  subst ho ha hb hn hs
  unfold OrderBook.cancel
  cases hv : lookupOrd or₁ id with
  | none =>
    refine ⟨⟨rfl, rfl, rfl, rfl, rfl⟩, rfl, ?_, ?_⟩ <;> (intro hh; trivial)
  | some order =>
    dsimp only
    cases hos : order.side <;>
      cases jo₁ <;> cases jo₂ <;>
      refine ⟨⟨rfl, rfl, rfl, rfl, rfl⟩, rfl, ?_, ?_⟩ <;>
      (intro hh; first | rfl | cases hh)

theorem modify_congr (a c : OrderBook) (id : Nat)
    (price quantity : Option Nat) (h : coreEq a c) :
    coreEq (a.modify id price quantity).2 (c.modify id price quantity).2 ∧
    eraseLog (a.modify id price quantity).1
      = eraseLog (c.modify id price quantity).1 ∧
    (a.modify id price quantity).2.journaling = a.journaling ∧
    (c.modify id price quantity).2.journaling = c.journaling ∧
    (c.journaling = false → okLogNone (c.modify id price quantity).1) := by
  obtain ⟨lo₁, sy₁, ni₁, or₁, as₁, bi₁, jo₁⟩ := a
  obtain ⟨lo₂, sy₂, ni₂, or₂, as₂, bi₂, jo₂⟩ := c
  obtain ⟨ho, ha, hb, hn, hs⟩ := h
  dsimp only at ho ha hb hn hs
  subst ho ha hb hn hs
  unfold OrderBook.modify
  dsimp only
  have hc := cancel_congr ⟨lo₁, sy₁, ni₁, or₁, as₁, bi₁, false⟩
    ⟨lo₂, sy₁, ni₁, or₁, as₁, bi₁, false⟩ id ⟨rfl, rfl, rfl, rfl, rfl⟩
  have hcf := cancel_post_fields
    (⟨lo₁, sy₁, ni₁, or₁, as₁, bi₁, false⟩ : OrderBook) id
  have hcf' := cancel_post_fields
    (⟨lo₂, sy₁, ni₁, or₁, as₁, bi₁, false⟩ : OrderBook) id
  rcases hca : (⟨lo₁, sy₁, ni₁, or₁, as₁, bi₁, false⟩ : OrderBook).cancel id
    with ⟨res1a, b1a⟩
  rcases hcc : (⟨lo₂, sy₁, ni₁, or₁, as₁, bi₁, false⟩ : OrderBook).cancel id
    with ⟨res1c, b1c⟩
  rw [hca] at hcf
  rw [hcc] at hcf'
  rw [hca, hcc] at hc
  have hres1 : res1a = res1c :=
    eq_of_eraseLog _ _ hc.2.1 (hc.2.2.1 rfl) (hc.2.2.2 rfl)
  subst hres1
  have hb1aj : b1a.journaling = false := hcf.1
  have hb1cj : b1c.journaling = false := hcf'.1
  cases res1a with
  | error e =>
    refine ⟨⟨hc.1.1, hc.1.2.1, hc.1.2.2.1, hc.1.2.2.2.1, hc.1.2.2.2.2⟩,
      rfl, rfl, rfl, ?_⟩
    intro hh; trivial
  | ok order =>
    rcases price with _ | p <;> rcases quantity with _ | q
    · -- (none, none)
      refine ⟨⟨hc.1.1, hc.1.2.1, hc.1.2.2.1, hc.1.2.2.2.1, hc.1.2.2.2.2⟩,
        rfl, rfl, rfl, ?_⟩
      intro hh; trivial
    · -- (none, some q)
      dsimp only
      have hl := limit_congr b1a b1c
        { side := order.side, quantity := q, price := order.price
          time_in_force := some order.time_in_force
          post_only := some order.post_only } hc.1
      rcases hla : b1a.limit
        { side := order.side, quantity := q, price := order.price
          time_in_force := some order.time_in_force
          post_only := some order.post_only } with ⟨res2a, b2a⟩
      rcases hlc : b1c.limit
        { side := order.side, quantity := q, price := order.price
          time_in_force := some order.time_in_force
          post_only := some order.post_only } with ⟨res2c, b2c⟩
      rw [hla, hlc] at hl
      have hres2 : res2a = res2c :=
        eq_of_eraseLog _ _ hl.2.1 (hl.2.2.2.2.1 hb1aj) (hl.2.2.2.2.2 hb1cj)
      subst hres2
      cases res2a with
      | error e =>
        refine ⟨⟨hl.1.1, hl.1.2.1, hl.1.2.2.1, hl.1.2.2.2.1, hl.1.2.2.2.2⟩,
          rfl, rfl, rfl, ?_⟩
        intro hh; trivial
      | ok r0 =>
        have hlog : okLogNone (Except.ok r0 : Except OrderBookError ExecutionReport) :=
          hl.2.2.2.2.2 hb1cj
        cases jo₁ <;> cases jo₂ <;>
          refine ⟨⟨hl.1.1, hl.1.2.1, hl.1.2.2.1, hl.1.2.2.2.1, hl.1.2.2.2.2⟩,
            rfl, rfl, rfl, ?_⟩ <;>
          (intro hh; first | exact hlog | cases hh)
    · -- (some p, none)
      dsimp only
      have hl := limit_congr b1a b1c
        { side := order.side, quantity := order.remaining_qty, price := p
          time_in_force := some order.time_in_force
          post_only := some order.post_only } hc.1
      rcases hla : b1a.limit
        { side := order.side, quantity := order.remaining_qty, price := p
          time_in_force := some order.time_in_force
          post_only := some order.post_only } with ⟨res2a, b2a⟩
      rcases hlc : b1c.limit
        { side := order.side, quantity := order.remaining_qty, price := p
          time_in_force := some order.time_in_force
          post_only := some order.post_only } with ⟨res2c, b2c⟩
      rw [hla, hlc] at hl
      have hres2 : res2a = res2c :=
        eq_of_eraseLog _ _ hl.2.1 (hl.2.2.2.2.1 hb1aj) (hl.2.2.2.2.2 hb1cj)
      subst hres2
      cases res2a with
      | error e =>
        refine ⟨⟨hl.1.1, hl.1.2.1, hl.1.2.2.1, hl.1.2.2.2.1, hl.1.2.2.2.2⟩,
          rfl, rfl, rfl, ?_⟩
        intro hh; trivial
      | ok r0 =>
        have hlog : okLogNone (Except.ok r0 : Except OrderBookError ExecutionReport) :=
          hl.2.2.2.2.2 hb1cj
        cases jo₁ <;> cases jo₂ <;>
          refine ⟨⟨hl.1.1, hl.1.2.1, hl.1.2.2.1, hl.1.2.2.2.1, hl.1.2.2.2.2⟩,
            rfl, rfl, rfl, ?_⟩ <;>
          (intro hh; first | exact hlog | cases hh)
    · -- (some p, some q)
      dsimp only
      have hl := limit_congr b1a b1c
        { side := order.side, quantity := q, price := p
          time_in_force := some order.time_in_force
          post_only := some order.post_only } hc.1
      rcases hla : b1a.limit
        { side := order.side, quantity := q, price := p
          time_in_force := some order.time_in_force
          post_only := some order.post_only } with ⟨res2a, b2a⟩
      rcases hlc : b1c.limit
        { side := order.side, quantity := q, price := p
          time_in_force := some order.time_in_force
          post_only := some order.post_only } with ⟨res2c, b2c⟩
      rw [hla, hlc] at hl
      have hres2 : res2a = res2c :=
        eq_of_eraseLog _ _ hl.2.1 (hl.2.2.2.2.1 hb1aj) (hl.2.2.2.2.2 hb1cj)
      subst hres2
      cases res2a with
      | error e =>
        refine ⟨⟨hl.1.1, hl.1.2.1, hl.1.2.2.1, hl.1.2.2.2.1, hl.1.2.2.2.2⟩,
          rfl, rfl, rfl, ?_⟩
        intro hh; trivial
      | ok r0 =>
        have hlog : okLogNone (Except.ok r0 : Except OrderBookError ExecutionReport) :=
          hl.2.2.2.2.2 hb1cj
        cases jo₁ <;> cases jo₂ <;>
          refine ⟨⟨hl.1.1, hl.1.2.1, hl.1.2.2.1, hl.1.2.2.2.1, hl.1.2.2.2.2⟩,
            rfl, rfl, rfl, ?_⟩ <;>
          (intro hh; first | exact hlog | cases hh)

theorem runOp_congr (a c : OrderBook) (op : Op) (h : coreEq a c) :
    coreEq (runOp a op).2 (runOp c op).2 ∧
    eraseLog (runOp a op).1 = eraseLog (runOp c op).1 ∧
    (runOp a op).2.journaling = a.journaling ∧
    (runOp c op).2.journaling = c.journaling ∧
    (c.journaling = false → okLogNone (runOp c op).1) := by
  cases op with
  | market o =>
    have hm := market_congr a c o h
    exact ⟨hm.1, hm.2.1, hm.2.2.1, hm.2.2.2.1, hm.2.2.2.2.2⟩
  | limit o =>
    have hm := limit_congr a c o h
    exact ⟨hm.1, hm.2.1, hm.2.2.1, hm.2.2.2.1, hm.2.2.2.2.2⟩
  | cancel id =>
    have hm := cancel_congr a c id h
    exact ⟨hm.1, hm.2.1, (cancel_post_fields a id).1,
      (cancel_post_fields c id).1, hm.2.2.2⟩
  | modify id p q =>
    exact modify_congr a c id p q h

theorem runOps_congr (ops : List Op) (a c : OrderBook) (h : coreEq a c)
    (hja : a.journaling = true) (hjc : c.journaling = false) :
    coreEq (runOps a ops) (runOps c ops) ∧
    (runOps a ops).journaling = true ∧
    (runOps c ops).journaling = false := by
  induction ops generalizing a c with
  | nil => exact ⟨h, hja, hjc⟩
  | cons op rest ih =>
    have hop := runOp_congr a c op h
    exact ih (runOp a op).2 (runOp c op).2 hop.1
      (hop.2.2.1.trans hja) (hop.2.2.2.1.trans hjc)

/-- C10: running any sequence of public operations on a journaling book and
on an otherwise identical non-journaling book yields identical order
indexes, bid and ask queues, and next order ids, and the next operation
returns the same result up to the report's `log` field — which is always
`none` on the non-journaling book. Journaling affects only `last_op` and
the emitted journal entries, never matching outcomes. -/
theorem journaling_noninterference (b : OrderBook) (ops : List Op) (op : Op) :
    coreEq (runOps { b with journaling := true } ops)
           (runOps { b with journaling := false } ops) ∧
    eraseLog (runOp (runOps { b with journaling := true } ops) op).1
      = eraseLog (runOp (runOps { b with journaling := false } ops) op).1 ∧
    okLogNone (runOp (runOps { b with journaling := false } ops) op).1 := by
  have hseq := runOps_congr ops { b with journaling := true }
    { b with journaling := false } ⟨rfl, rfl, rfl, rfl, rfl⟩ rfl rfl
  have hop := runOp_congr (runOps { b with journaling := true } ops)
    (runOps { b with journaling := false } ops) op hseq.1
  exact ⟨hseq.1, hop.2.1, hop.2.2.2.2 hseq.2.2⟩

/-! ### C7 — the book never crosses: `best_bid < best_ask` in every
reachable state -/

/-- The price keys of one side, in storage (ascending) order. -/
def levelKeys (s : BookSide) : List Nat := s.map Prod.fst

/-- Every id queued on the side resolves in the index to an order at that
level's price, on the right side, with positive remaining quantity. -/
def sideCoherent (orders : OrdersMap) (s : BookSide) (side : Side) : Prop :=
  ∀ p q, (p, q) ∈ s → ∀ id ∈ q,
    ∃ ord, lookupOrd orders id = some ord ∧
      ord.price = p ∧ ord.side = side ∧ 0 < ord.remaining_qty

/-- The inductive well-formedness invariant of a book. `uncrossed` is the
all-pairs form: with both sides sorted it is equivalent to
`best_bid < best_ask`. -/
structure Inv (b : OrderBook) : Prop where
  asks_sorted : (levelKeys b.asks).Pairwise (· < ·)
  bids_sorted : (levelKeys b.bids).Pairwise (· < ·)
  asks_nonempty : ∀ l ∈ b.asks, l.2 ≠ []
  bids_nonempty : ∀ l ∈ b.bids, l.2 ≠ []
  asks_coherent : sideCoherent b.orders b.asks Side.Sell
  bids_coherent : sideCoherent b.orders b.bids Side.Buy
  ids_nodup : (sideIds b.bids ++ sideIds b.asks).Nodup
  ids_fresh : ∀ id ∈ sideIds b.bids ++ sideIds b.asks, id < b.next_order_id
  uncrossed : ∀ pb ∈ levelKeys b.bids, ∀ pa ∈ levelKeys b.asks, pb < pa

theorem process_queue_queue_sublist (q : List Nat) (orders : OrdersMap)
    (qty : Nat) : List.Sublist (process_queue orders q qty).queue q := by
  induction q generalizing orders qty with
  | nil => simp [process_queue]
  | cons hid rest ih =>
    unfold process_queue
    by_cases hq : qty = 0
    · simp [hq]
    · simp only [hq, if_false, reduceIte]
      cases hl : lookupOrd orders hid with
      | none => simp
      | some head =>
        dsimp only
        split
        · simp
        · exact List.Sublist.cons _ (ih _ _)

theorem process_queue_complete (q : List Nat) (orders : OrdersMap) (qty : Nat)
    (hnd : q.Nodup)
    (hres : ∀ id ∈ q, (lookupOrd orders id).isSome) :
    (process_queue orders q qty).qtyLeft = 0 ∨
    (process_queue orders q qty).queue = [] := by
  induction q generalizing orders qty with
  | nil => right; simp [process_queue]
  | cons hid rest ih =>
    obtain ⟨hh, hndr⟩ := List.nodup_cons.mp hnd
    unfold process_queue
    by_cases hq : qty = 0
    · left; simp [hq]
    · simp only [hq, if_false, reduceIte]
      obtain ⟨head, hl⟩ := Option.isSome_iff_exists.mp
        (hres hid (List.mem_cons_self _ _))
      rw [hl]
      try dsimp only
      split
      · left; rfl
      · exact ih (eraseOrd orders hid) _ hndr
          (fun id hm => by
            have hne : id ≠ hid := fun he => hh (he ▸ hm)
            rw [lookup_eraseOrd]
            simp only [hne, if_false, reduceIte]
            exact hres id (List.mem_cons_of_mem _ hm))

theorem process_queue_coherent (p : Nat) (side : Side) (q : List Nat)
    (orders : OrdersMap) (qty : Nat) (hnd : q.Nodup)
    (hco : ∀ id ∈ q, ∃ ord, lookupOrd orders id = some ord ∧
      ord.price = p ∧ ord.side = side ∧ 0 < ord.remaining_qty) :
    ∀ id ∈ (process_queue orders q qty).queue,
      ∃ ord, lookupOrd (process_queue orders q qty).orders id = some ord ∧
        ord.price = p ∧ ord.side = side ∧ 0 < ord.remaining_qty := by
  induction q generalizing orders qty with
  | nil => simp [process_queue]
  | cons hid rest ih =>
    obtain ⟨hh, hndr⟩ := List.nodup_cons.mp hnd
    obtain ⟨head, hl, hprice, hside, hrem⟩ := hco hid (List.mem_cons_self _ _)
    unfold process_queue
    by_cases hq : qty = 0
    · simpa [hq] using hco
    · simp only [hq, if_false, reduceIte, hl]
      try dsimp only
      split
      · rename_i hlt
        intro id hm
        rcases List.mem_cons.mp hm with rfl | hmr
        · refine ⟨{ head with
              remaining_qty := safe_sub head.remaining_qty qty
              executed_qty := safe_add head.executed_qty qty
              status := OrderStatus.PartiallyFilled }, ?_, hprice, hside, ?_⟩
          · show lookupOrd (insertOrd (eraseOrd orders id) id _) id = _
            rw [lookup_insertOrd]
            simp
          · show 0 < safe_sub head.remaining_qty qty
            simp only [safe_sub]
            omega
        · have hne : id ≠ hid := fun he => hh (he ▸ hmr)
          obtain ⟨ord, ho, h1, h2, h3⟩ := hco id (List.mem_cons_of_mem _ hmr)
          exact ⟨ord, by simp [lookup_insertOrd, lookup_eraseOrd, hne,
            Ne.symm hne, ho], h1, h2, h3⟩
      · exact ih (eraseOrd orders hid) _ hndr
          (fun id hm => by
            have hne : id ≠ hid := fun he => hh (he ▸ hm)
            obtain ⟨ord, ho, h1, h2, h3⟩ := hco id (List.mem_cons_of_mem _ hm)
            exact ⟨ord, by simp [lookup_eraseOrd, hne, ho], h1, h2, h3⟩)

theorem sideIds_cons (p : Nat) (q : List Nat) (rest : BookSide) :
    sideIds ((p, q) :: rest) = q ++ sideIds rest := by
  simp [sideIds]

theorem mem_sideIds_of_mem (s : BookSide) (p : Nat) (q : List Nat) (id : Nat)
    (hl : (p, q) ∈ s) (hq : id ∈ q) : id ∈ sideIds s := by
  induction s with
  | nil => cases hl
  | cons l rest ih =>
    rcases l with ⟨p', q'⟩
    rw [sideIds_cons]
    rcases List.mem_cons.mp hl with he | hm
    · cases he
      exact List.mem_append_left _ hq
    · exact List.mem_append_right _ (ih hm)

theorem matchAsksGo_levelKeys_sublist (asks : BookSide) (orders : OrdersMap)
    (qty : Nat) (lp : Option Nat) :
    List.Sublist (levelKeys (matchAsksGo orders asks qty lp).levels)
      (levelKeys asks) := by
  induction asks generalizing orders qty with
  | nil => simp [matchAsksGo]
  | cons l rest ih =>
    rcases l with ⟨p, q⟩
    unfold matchAsksGo
    split
    · simp
    · split
      · simp
      · try dsimp only
        split
        · exact List.Sublist.cons _ (ih _ _)
        · exact List.Sublist.cons₂ _ (ih _ _)

theorem matchAsksGo_sideIds_sublist (asks : BookSide) (orders : OrdersMap)
    (qty : Nat) (lp : Option Nat) :
    List.Sublist (sideIds (matchAsksGo orders asks qty lp).levels)
      (sideIds asks) := by
  induction asks generalizing orders qty with
  | nil => simp [matchAsksGo]
  | cons l rest ih =>
    rcases l with ⟨p, q⟩
    unfold matchAsksGo
    split
    · simp
    · split
      · simp
      · try dsimp only
        rw [sideIds_cons]
        split
        · exact (ih _ _).trans (List.sublist_append_right _ _)
        · rw [sideIds_cons]
          exact List.Sublist.append (process_queue_queue_sublist q orders qty)
            (ih _ _)

theorem matchAsksGo_nonempty (asks : BookSide) (orders : OrdersMap)
    (qty : Nat) (lp : Option Nat) (hne : ∀ l ∈ asks, l.2 ≠ []) :
    ∀ l ∈ (matchAsksGo orders asks qty lp).levels, l.2 ≠ [] := by
  induction asks generalizing orders qty with
  | nil => simp [matchAsksGo]
  | cons l rest ih =>
    rcases l with ⟨p, q⟩
    unfold matchAsksGo
    split
    · exact hne
    · split
      · exact hne
      · try dsimp only
        have hrest : ∀ l ∈ rest, l.2 ≠ [] := fun l hm =>
          hne l (List.mem_cons_of_mem _ hm)
        split
        · exact ih _ _ hrest
        · rename_i hq
          intro l hm
          rcases List.mem_cons.mp hm with rfl | hmr
          · simpa using hq
          · exact ih _ _ hrest l hmr

theorem matchAsksGo_lookup_preserved (asks : BookSide) (orders : OrdersMap)
    (qty : Nat) (lp : Option Nat) (x : Nat) (hx : x ∉ sideIds asks) :
    lookupOrd (matchAsksGo orders asks qty lp).orders x = lookupOrd orders x := by
  induction asks generalizing orders qty with
  | nil => simp [matchAsksGo]
  | cons l rest ih =>
    rcases l with ⟨p, q⟩
    rw [sideIds_cons] at hx
    have hxq : x ∉ q := fun hm => hx (List.mem_append_left _ hm)
    have hxr : x ∉ sideIds rest := fun hm => hx (List.mem_append_right _ hm)
    unfold matchAsksGo
    split
    · rfl
    · split
      · rfl
      · try dsimp only
        rw [ih _ _ hxr]
        exact process_queue_lookup_not_mem q orders qty x hxq

theorem matchAsksGo_coherent (asks : BookSide) (orders : OrdersMap)
    (qty : Nat) (lp : Option Nat)
    (hnd : (sideIds asks).Nodup)
    (hco : ∀ p q, (p, q) ∈ asks → ∀ id ∈ q,
      ∃ ord, lookupOrd orders id = some ord ∧
        ord.price = p ∧ ord.side = Side.Sell ∧ 0 < ord.remaining_qty) :
    ∀ p q, (p, q) ∈ (matchAsksGo orders asks qty lp).levels → ∀ id ∈ q,
      ∃ ord, lookupOrd (matchAsksGo orders asks qty lp).orders id = some ord ∧
        ord.price = p ∧ ord.side = Side.Sell ∧ 0 < ord.remaining_qty := by
  induction asks generalizing orders qty with
  | nil => simp [matchAsksGo]
  | cons l rest ih =>
    rcases l with ⟨p₀, q₀⟩
    rw [sideIds_cons] at hnd
    obtain ⟨hndq, hndr, hdisj⟩ := List.nodup_append.mp hnd
    have hcoq : ∀ id ∈ q₀, ∃ ord, lookupOrd orders id = some ord ∧
        ord.price = p₀ ∧ ord.side = Side.Sell ∧ 0 < ord.remaining_qty :=
      hco p₀ q₀ (List.mem_cons_self _ _)
    have hcor : ∀ p q, (p, q) ∈ rest → ∀ id ∈ q,
        ∃ ord, lookupOrd (process_queue orders q₀ qty).orders id = some ord ∧
          ord.price = p ∧ ord.side = Side.Sell ∧ 0 < ord.remaining_qty := by
      intro p q hm id hid
      obtain ⟨ord, ho, h1, h2, h3⟩ := hco p q (List.mem_cons_of_mem _ hm) id hid
      refine ⟨ord, ?_, h1, h2, h3⟩
      rw [process_queue_lookup_not_mem q₀ orders qty id
        (fun hq => hdisj hq (mem_sideIds_of_mem rest p q id hm hid))]
      exact ho
    unfold matchAsksGo
    split
    · exact hco
    · split
      · exact hco
      · try dsimp only
        intro p q hm id hid
        have hmain := ih (process_queue orders q₀ qty).orders
          (process_queue orders q₀ qty).qtyLeft hndr hcor
        split at hm
        · exact hmain p q hm id hid
        · rcases List.mem_cons.mp hm with he | hmr
          · cases he
            have hq0 : id ∈ q₀ :=
              (process_queue_queue_sublist q₀ orders qty).mem hid
            obtain ⟨ord, ho, h1, h2, h3⟩ :=
              process_queue_coherent p₀ Side.Sell q₀ orders qty hndq hcoq id hid
            refine ⟨ord, ?_, h1, h2, h3⟩
            rw [matchAsksGo_lookup_preserved rest _ _ lp id
              (fun hr => hdisj hq0 hr)]
            exact ho
          · exact hmain p q hmr id hid

theorem matchAsksGo_qty_zero (asks : BookSide) (orders : OrdersMap)
    (lp : Option Nat) : (matchAsksGo orders asks 0 lp).qtyLeft = 0 := by
  cases asks with
  | nil => simp [matchAsksGo]
  | cons l rest => rcases l with ⟨p, q⟩; simp [matchAsksGo]

/-- If a buy limited at `price` still wants quantity after the ask walk,
every surviving ask level is priced strictly above `price`. -/
theorem matchAsksGo_residual_keys (asks : BookSide) (orders : OrdersMap)
    (qty price : Nat)
    (hsorted : (levelKeys asks).Pairwise (· < ·))
    (hnd : (sideIds asks).Nodup)
    (hres : ∀ id ∈ sideIds asks, (lookupOrd orders id).isSome)
    (hlt : 0 < (matchAsksGo orders asks qty (some price)).qtyLeft) :
    ∀ k ∈ levelKeys (matchAsksGo orders asks qty (some price)).levels,
      price < k := by
  induction asks generalizing orders qty with
  | nil => simp [matchAsksGo, levelKeys]
  | cons l rest ih =>
    rcases l with ⟨p, q⟩
    rw [sideIds_cons] at hnd hres
    obtain ⟨hndq, hndr, hdisj⟩ := List.nodup_append.mp hnd
    have hp := List.pairwise_cons.mp hsorted
    unfold matchAsksGo at hlt ⊢
    by_cases hq0 : qty = 0
    · rw [if_pos hq0] at hlt
      exact absurd hlt (by simp [hq0])
    · rw [if_neg hq0] at hlt ⊢
      by_cases hbrk : askLimitBreak (some price) p
      · rw [if_pos hbrk] at hlt ⊢
        have hpp : price < p := by simpa [askLimitBreak] using hbrk
        intro k hk
        rcases List.mem_cons.mp hk with rfl | hmr
        · exact hpp
        · exact hpp.trans (hp.1 k (by
            simpa [levelKeys] using hmr))
      · rw [if_neg hbrk] at hlt ⊢
        try dsimp only at hlt ⊢
        rcases process_queue_complete q orders qty hndq
            (fun id hm => hres id (List.mem_append_left _ hm)) with hzero | hempty
        · exfalso
          rw [hzero, matchAsksGo_qty_zero] at hlt
          exact Nat.lt_irrefl 0 hlt
        · have hresr : ∀ id ∈ sideIds rest,
              (lookupOrd (process_queue orders q qty).orders id).isSome := by
            intro id hm
            rw [process_queue_lookup_not_mem q orders qty id
              (fun hq => hdisj hq hm)]
            exact hres id (List.mem_append_right _ hm)
          have hrec := ih (process_queue orders q qty).orders
            (process_queue orders q qty).qtyLeft hp.2 hndr hresr hlt
          simp only [hempty, List.isEmpty_nil, if_true, reduceIte]
          exact hrec

theorem matchBidsGo_levelKeys_sublist (bids : BookSide) (orders : OrdersMap)
    (qty : Nat) (lp : Option Nat) :
    List.Sublist (levelKeys (matchBidsGo orders bids qty lp).levels)
      (levelKeys bids) := by
  induction bids generalizing orders qty with
  | nil => simp [matchBidsGo]
  | cons l rest ih =>
    rcases l with ⟨p, q⟩
    unfold matchBidsGo
    split
    · simp
    · split
      · simp
      · try dsimp only
        split
        · exact List.Sublist.cons _ (ih _ _)
        · exact List.Sublist.cons₂ _ (ih _ _)

theorem matchBidsGo_sideIds_sublist (bids : BookSide) (orders : OrdersMap)
    (qty : Nat) (lp : Option Nat) :
    List.Sublist (sideIds (matchBidsGo orders bids qty lp).levels)
      (sideIds bids) := by
  induction bids generalizing orders qty with
  | nil => simp [matchBidsGo]
  | cons l rest ih =>
    rcases l with ⟨p, q⟩
    unfold matchBidsGo
    split
    · simp
    · split
      · simp
      · try dsimp only
        rw [sideIds_cons]
        split
        · exact (ih _ _).trans (List.sublist_append_right _ _)
        · rw [sideIds_cons]
          exact List.Sublist.append (process_queue_queue_sublist q orders qty)
            (ih _ _)

theorem matchBidsGo_nonempty (bids : BookSide) (orders : OrdersMap)
    (qty : Nat) (lp : Option Nat) (hne : ∀ l ∈ bids, l.2 ≠ []) :
    ∀ l ∈ (matchBidsGo orders bids qty lp).levels, l.2 ≠ [] := by
  induction bids generalizing orders qty with
  | nil => simp [matchBidsGo]
  | cons l rest ih =>
    rcases l with ⟨p, q⟩
    unfold matchBidsGo
    split
    · exact hne
    · split
      · exact hne
      · try dsimp only
        have hrest : ∀ l ∈ rest, l.2 ≠ [] := fun l hm =>
          hne l (List.mem_cons_of_mem _ hm)
        split
        · exact ih _ _ hrest
        · rename_i hq
          intro l hm
          rcases List.mem_cons.mp hm with rfl | hmr
          · simpa using hq
          · exact ih _ _ hrest l hmr

theorem matchBidsGo_lookup_preserved (bids : BookSide) (orders : OrdersMap)
    (qty : Nat) (lp : Option Nat) (x : Nat) (hx : x ∉ sideIds bids) :
    lookupOrd (matchBidsGo orders bids qty lp).orders x = lookupOrd orders x := by
  induction bids generalizing orders qty with
  | nil => simp [matchBidsGo]
  | cons l rest ih =>
    rcases l with ⟨p, q⟩
    rw [sideIds_cons] at hx
    have hxq : x ∉ q := fun hm => hx (List.mem_append_left _ hm)
    have hxr : x ∉ sideIds rest := fun hm => hx (List.mem_append_right _ hm)
    unfold matchBidsGo
    split
    · rfl
    · split
      · rfl
      · try dsimp only
        rw [ih _ _ hxr]
        exact process_queue_lookup_not_mem q orders qty x hxq

theorem matchBidsGo_coherent (bids : BookSide) (orders : OrdersMap)
    (qty : Nat) (lp : Option Nat)
    (hnd : (sideIds bids).Nodup)
    (hco : ∀ p q, (p, q) ∈ bids → ∀ id ∈ q,
      ∃ ord, lookupOrd orders id = some ord ∧
        ord.price = p ∧ ord.side = Side.Buy ∧ 0 < ord.remaining_qty) :
    ∀ p q, (p, q) ∈ (matchBidsGo orders bids qty lp).levels → ∀ id ∈ q,
      ∃ ord, lookupOrd (matchBidsGo orders bids qty lp).orders id = some ord ∧
        ord.price = p ∧ ord.side = Side.Buy ∧ 0 < ord.remaining_qty := by
  induction bids generalizing orders qty with
  | nil => simp [matchBidsGo]
  | cons l rest ih =>
    rcases l with ⟨p₀, q₀⟩
    rw [sideIds_cons] at hnd
    obtain ⟨hndq, hndr, hdisj⟩ := List.nodup_append.mp hnd
    have hcoq : ∀ id ∈ q₀, ∃ ord, lookupOrd orders id = some ord ∧
        ord.price = p₀ ∧ ord.side = Side.Buy ∧ 0 < ord.remaining_qty :=
      hco p₀ q₀ (List.mem_cons_self _ _)
    have hcor : ∀ p q, (p, q) ∈ rest → ∀ id ∈ q,
        ∃ ord, lookupOrd (process_queue orders q₀ qty).orders id = some ord ∧
          ord.price = p ∧ ord.side = Side.Buy ∧ 0 < ord.remaining_qty := by
      intro p q hm id hid
      obtain ⟨ord, ho, h1, h2, h3⟩ := hco p q (List.mem_cons_of_mem _ hm) id hid
      refine ⟨ord, ?_, h1, h2, h3⟩
      rw [process_queue_lookup_not_mem q₀ orders qty id
        (fun hq => hdisj hq (mem_sideIds_of_mem rest p q id hm hid))]
      exact ho
    unfold matchBidsGo
    split
    · exact hco
    · split
      · exact hco
      · try dsimp only
        intro p q hm id hid
        have hmain := ih (process_queue orders q₀ qty).orders
          (process_queue orders q₀ qty).qtyLeft hndr hcor
        split at hm
        · exact hmain p q hm id hid
        · rcases List.mem_cons.mp hm with he | hmr
          · cases he
            have hq0 : id ∈ q₀ :=
              (process_queue_queue_sublist q₀ orders qty).mem hid
            obtain ⟨ord, ho, h1, h2, h3⟩ :=
              process_queue_coherent p₀ Side.Buy q₀ orders qty hndq hcoq id hid
            refine ⟨ord, ?_, h1, h2, h3⟩
            rw [matchBidsGo_lookup_preserved rest _ _ lp id
              (fun hr => hdisj hq0 hr)]
            exact ho
          · exact hmain p q hmr id hid

theorem matchBidsGo_qty_zero (bids : BookSide) (orders : OrdersMap)
    (lp : Option Nat) : (matchBidsGo orders bids 0 lp).qtyLeft = 0 := by
  cases bids with
  | nil => simp [matchBidsGo]
  | cons l rest => rcases l with ⟨p, q⟩; simp [matchBidsGo]

/-- If a sell limited at `price` still wants quantity after the bid walk
(which runs on the reversed, descending-sorted list), every surviving bid
level is priced strictly below `price`. -/
theorem matchBidsGo_residual_keys (bids : BookSide) (orders : OrdersMap)
    (qty price : Nat)
    (hsorted : (levelKeys bids).Pairwise (· > ·))
    (hnd : (sideIds bids).Nodup)
    (hres : ∀ id ∈ sideIds bids, (lookupOrd orders id).isSome)
    (hlt : 0 < (matchBidsGo orders bids qty (some price)).qtyLeft) :
    ∀ k ∈ levelKeys (matchBidsGo orders bids qty (some price)).levels,
      k < price := by
  induction bids generalizing orders qty with
  | nil => simp [matchBidsGo, levelKeys]
  | cons l rest ih =>
    rcases l with ⟨p, q⟩
    rw [sideIds_cons] at hnd hres
    obtain ⟨hndq, hndr, hdisj⟩ := List.nodup_append.mp hnd
    have hp := List.pairwise_cons.mp hsorted
    unfold matchBidsGo at hlt ⊢
    by_cases hq0 : qty = 0
    · rw [if_pos hq0] at hlt
      exact absurd hlt (by simp [hq0])
    · rw [if_neg hq0] at hlt ⊢
      by_cases hbrk : bidLimitBreak (some price) p
      · rw [if_pos hbrk] at hlt ⊢
        have hpp : p < price := by simpa [bidLimitBreak] using hbrk
        intro k hk
        rcases List.mem_cons.mp hk with rfl | hmr
        · exact hpp
        · exact lt_trans (hp.1 k (by simpa [levelKeys] using hmr)) hpp
      · rw [if_neg hbrk] at hlt ⊢
        try dsimp only at hlt ⊢
        rcases process_queue_complete q orders qty hndq
            (fun id hm => hres id (List.mem_append_left _ hm)) with hzero | hempty
        · exfalso
          rw [hzero, matchBidsGo_qty_zero] at hlt
          exact Nat.lt_irrefl 0 hlt
        · have hresr : ∀ id ∈ sideIds rest,
              (lookupOrd (process_queue orders q qty).orders id).isSome := by
            intro id hm
            rw [process_queue_lookup_not_mem q orders qty id
              (fun hq => hdisj hq hm)]
            exact hres id (List.mem_append_right _ hm)
          have hrec := ih (process_queue orders q qty).orders
            (process_queue orders q qty).qtyLeft hp.2 hndr hresr hlt
          simp only [hempty, List.isEmpty_nil, if_true, reduceIte]
          exact hrec

theorem levelKeys_reverse (s : BookSide) :
    levelKeys s.reverse = (levelKeys s).reverse := by
  simp [levelKeys]

/-- Everything the invariant needs to know about an ask walk. -/
theorem match_with_asks_facts (asks : BookSide) (orders : OrdersMap)
    (qty : Nat) (lp : Option Nat)
    (hsorted : (levelKeys asks).Pairwise (· < ·))
    (hne : ∀ l ∈ asks, l.2 ≠ [])
    (hnd : (sideIds asks).Nodup)
    (hco : ∀ p q, (p, q) ∈ asks → ∀ id ∈ q,
      ∃ ord, lookupOrd orders id = some ord ∧
        ord.price = p ∧ ord.side = Side.Sell ∧ 0 < ord.remaining_qty) :
    (levelKeys (match_with_asks orders asks qty lp).levels).Pairwise (· < ·) ∧
    (∀ l ∈ (match_with_asks orders asks qty lp).levels, l.2 ≠ []) ∧
    (sideIds (match_with_asks orders asks qty lp).levels).Nodup ∧
    (∀ x ∈ sideIds (match_with_asks orders asks qty lp).levels,
      x ∈ sideIds asks) ∧
    (∀ p q, (p, q) ∈ (match_with_asks orders asks qty lp).levels → ∀ id ∈ q,
      ∃ ord, lookupOrd (match_with_asks orders asks qty lp).orders id = some ord ∧
        ord.price = p ∧ ord.side = Side.Sell ∧ 0 < ord.remaining_qty) ∧
    (∀ x, x ∉ sideIds asks →
      lookupOrd (match_with_asks orders asks qty lp).orders x = lookupOrd orders x) ∧
    (∀ k ∈ levelKeys (match_with_asks orders asks qty lp).levels,
      k ∈ levelKeys asks) := by
  unfold match_with_asks
  refine ⟨hsorted.sublist (matchAsksGo_levelKeys_sublist asks orders qty lp),
    matchAsksGo_nonempty asks orders qty lp hne,
    hnd.sublist (matchAsksGo_sideIds_sublist asks orders qty lp),
    fun x hx => (matchAsksGo_sideIds_sublist asks orders qty lp).mem hx,
    matchAsksGo_coherent asks orders qty lp hnd hco,
    fun x hx => matchAsksGo_lookup_preserved asks orders qty lp x hx,
    fun k hk => (matchAsksGo_levelKeys_sublist asks orders qty lp).mem hk⟩

/-- Everything the invariant needs to know about a bid walk (traversal is in
reverse, storage stays ascending). -/
theorem match_with_bids_facts (bids : BookSide) (orders : OrdersMap)
    (qty : Nat) (lp : Option Nat)
    (hsorted : (levelKeys bids).Pairwise (· < ·))
    (hne : ∀ l ∈ bids, l.2 ≠ [])
    (hnd : (sideIds bids).Nodup)
    (hco : ∀ p q, (p, q) ∈ bids → ∀ id ∈ q,
      ∃ ord, lookupOrd orders id = some ord ∧
        ord.price = p ∧ ord.side = Side.Buy ∧ 0 < ord.remaining_qty) :
    (levelKeys (match_with_bids orders bids qty lp).levels).Pairwise (· < ·) ∧
    (∀ l ∈ (match_with_bids orders bids qty lp).levels, l.2 ≠ []) ∧
    (sideIds (match_with_bids orders bids qty lp).levels).Nodup ∧
    (∀ x ∈ sideIds (match_with_bids orders bids qty lp).levels,
      x ∈ sideIds bids) ∧
    (∀ p q, (p, q) ∈ (match_with_bids orders bids qty lp).levels → ∀ id ∈ q,
      ∃ ord, lookupOrd (match_with_bids orders bids qty lp).orders id = some ord ∧
        ord.price = p ∧ ord.side = Side.Buy ∧ 0 < ord.remaining_qty) ∧
    (∀ x, x ∉ sideIds bids →
      lookupOrd (match_with_bids orders bids qty lp).orders x = lookupOrd orders x) ∧
    (∀ k ∈ levelKeys (match_with_bids orders bids qty lp).levels,
      k ∈ levelKeys bids) := by
  have hsorted' : (levelKeys bids.reverse).Pairwise (· > ·) := by
    rw [levelKeys_reverse]
    exact List.pairwise_reverse.mpr hsorted
  have hne' : ∀ l ∈ bids.reverse, l.2 ≠ [] := fun l hm =>
    hne l (List.mem_reverse.mp hm)
  have hnd' : (sideIds bids.reverse).Nodup :=
    (sideIds_reverse_perm bids).nodup_iff.mpr hnd
  have hco' : ∀ p q, (p, q) ∈ bids.reverse → ∀ id ∈ q,
      ∃ ord, lookupOrd orders id = some ord ∧
        ord.price = p ∧ ord.side = Side.Buy ∧ 0 < ord.remaining_qty :=
    fun p q hm => hco p q (List.mem_reverse.mp hm)
  unfold match_with_bids
  try dsimp only
  refine ⟨?_, ?_, ?_, ?_, ?_, ?_, ?_⟩
  · rw [levelKeys_reverse, List.pairwise_reverse]
    exact hsorted'.sublist
      (matchBidsGo_levelKeys_sublist bids.reverse orders qty lp)
  · intro l hm
    exact matchBidsGo_nonempty bids.reverse orders qty lp hne' l
      (List.mem_reverse.mp hm)
  · exact ((sideIds_reverse_perm _).nodup_iff.mpr
      (hnd'.sublist (matchBidsGo_sideIds_sublist bids.reverse orders qty lp)))
  · intro x hx
    have hx' := (sideIds_reverse_perm _).mem_iff.mp hx
    have := (matchBidsGo_sideIds_sublist bids.reverse orders qty lp).mem hx'
    exact (sideIds_reverse_perm bids).mem_iff.mp this
  · intro p q hm id hid
    exact matchBidsGo_coherent bids.reverse orders qty lp hnd' hco' p q
      (List.mem_reverse.mp hm) id hid
  · intro x hx
    exact matchBidsGo_lookup_preserved bids.reverse orders qty lp x
      (fun hm => hx ((sideIds_reverse_perm bids).mem_iff.mp hm))
  · intro k hk
    rw [levelKeys_reverse, List.mem_reverse] at hk
    have := (matchBidsGo_levelKeys_sublist bids.reverse orders qty lp).mem hk
    rw [levelKeys_reverse, List.mem_reverse] at this
    exact this

/-- Residual form for the two public walk wrappers. -/
theorem match_with_asks_residual (asks : BookSide) (orders : OrdersMap)
    (qty price : Nat)
    (hsorted : (levelKeys asks).Pairwise (· < ·))
    (hnd : (sideIds asks).Nodup)
    (hres : ∀ id ∈ sideIds asks, (lookupOrd orders id).isSome)
    (hlt : 0 < (match_with_asks orders asks qty (some price)).qtyLeft) :
    ∀ k ∈ levelKeys (match_with_asks orders asks qty (some price)).levels,
      price < k :=
  matchAsksGo_residual_keys asks orders qty price hsorted hnd hres hlt

theorem match_with_bids_residual (bids : BookSide) (orders : OrdersMap)
    (qty price : Nat)
    (hsorted : (levelKeys bids).Pairwise (· < ·))
    (hnd : (sideIds bids).Nodup)
    (hres : ∀ id ∈ sideIds bids, (lookupOrd orders id).isSome)
    (hlt : 0 < (match_with_bids orders bids qty (some price)).qtyLeft) :
    ∀ k ∈ levelKeys (match_with_bids orders bids qty (some price)).levels,
      k < price := by
  have hsorted' : (levelKeys bids.reverse).Pairwise (· > ·) := by
    rw [levelKeys_reverse]
    exact List.pairwise_reverse.mpr hsorted
  have hnd' : (sideIds bids.reverse).Nodup :=
    (sideIds_reverse_perm bids).nodup_iff.mpr hnd
  have hres' : ∀ id ∈ sideIds bids.reverse, (lookupOrd orders id).isSome :=
    fun id hm => hres id ((sideIds_reverse_perm bids).mem_iff.mp hm)
  intro k hk
  have hk' : k ∈ levelKeys (matchBidsGo orders bids.reverse qty
      (some price)).levels := by
    unfold match_with_bids at hk
    rw [levelKeys_reverse, List.mem_reverse] at hk
    exact hk
  exact matchBidsGo_residual_keys bids.reverse orders qty price hsorted' hnd'
    hres' hlt k hk'

/-! ### Structural lemmas about side surgery (`sidePush`, `removeFromSide`) -/

theorem flatten_sublist (L₁ L₂ : List (List Nat)) (h : List.Sublist L₁ L₂) :
    List.Sublist L₁.flatten L₂.flatten := by
  induction h with
  | slnil => exact List.Sublist.refl _
  | cons a _ ih =>
    rw [List.flatten_cons]
    exact ih.trans (List.sublist_append_right a _)
  | cons₂ a _ ih =>
    rw [List.flatten_cons, List.flatten_cons]
    exact ih.append_left a

theorem sublist_flatten_of_mem (L : List (List Nat)) (l : List Nat)
    (h : l ∈ L) : List.Sublist l L.flatten := by
  induction L with
  | nil => cases h
  | cons a L ih =>
    rw [List.flatten_cons]
    rcases List.mem_cons.mp h with rfl | h
    · exact List.sublist_append_left _ _
    · exact (ih h).trans (List.sublist_append_right _ _)

theorem exists_level_of_mem_sideIds (s : BookSide) :
    ∀ x ∈ sideIds s, ∃ p q, (p, q) ∈ s ∧ x ∈ q := by
  induction s with
  | nil => intro x hx; cases hx
  | cons l rest ih =>
    rcases l with ⟨p, q⟩
    intro x hx
    rw [sideIds_cons] at hx
    rcases List.mem_append.mp hx with h | h
    · exact ⟨p, q, List.mem_cons_self _ _, h⟩
    · obtain ⟨p', q', hm, hq⟩ := ih x h
      exact ⟨p', q', List.mem_cons_of_mem _ hm, hq⟩

theorem sideGet_mem (s : BookSide) (price : Nat) (q : List Nat)
    (h : sideGet s price = some q) : (price, q) ∈ s := by
  induction s with
  | nil => cases h
  | cons l rest ih =>
    rcases l with ⟨p, qh⟩
    unfold sideGet at h
    split at h
    · next hp =>
      injection h with h
      rw [← hp, ← h]
      exact List.mem_cons_self _ _
    · exact List.mem_cons_of_mem _ (ih h)

theorem sideGet_none_not_mem (s : BookSide) (price : Nat)
    (h : sideGet s price = none) (q : List Nat) : (price, q) ∉ s := by
  induction s with
  | nil => simp
  | cons l rest ih =>
    rcases l with ⟨p, qh⟩
    unfold sideGet at h
    split at h
    · cases h
    · next hp =>
      intro hm
      rcases List.mem_cons.mp hm with he | hm
      · injection he with h1 _
        exact hp h1.symm
      · exact ih h hm

theorem levelKeys_sideSet (s : BookSide) (price : Nat) (nq : List Nat) :
    levelKeys (sideSet s price nq) = levelKeys s := by
  induction s with
  | nil => rfl
  | cons l rest ih =>
    rcases l with ⟨p, qh⟩
    unfold sideSet
    split
    · rfl
    · show p :: levelKeys (sideSet rest price nq) = p :: levelKeys rest
      rw [ih]

theorem sideIds_sideSet_sublist (s : BookSide) (price : Nat) (nq : List Nat)
    (h : ∀ q, sideGet s price = some q → List.Sublist nq q) :
    List.Sublist (sideIds (sideSet s price nq)) (sideIds s) := by
  induction s with
  | nil => exact List.Sublist.refl _
  | cons l rest ih =>
    rcases l with ⟨p, qh⟩
    unfold sideSet
    split
    · next hp =>
      have hq : List.Sublist nq qh := h qh (by unfold sideGet; rw [if_pos hp])
      show List.Sublist (sideIds ((p, nq) :: rest)) (sideIds ((p, qh) :: rest))
      rw [sideIds_cons, sideIds_cons]
      exact hq.append (List.Sublist.refl _)
    · next hp =>
      show List.Sublist (sideIds ((p, qh) :: sideSet rest price nq)) _
      rw [sideIds_cons, sideIds_cons]
      refine List.Sublist.append_left ?_ qh
      refine ih ?_
      intro q hq
      refine h q ?_
      unfold sideGet
      rw [if_neg hp]
      exact hq

theorem mem_sideSet_nodup (price : Nat) (nq : List Nat) (pp : Nat)
    (qq : List Nat) : ∀ s : BookSide, (levelKeys s).Nodup →
    (pp, qq) ∈ sideSet s price nq →
    ((pp, qq) ∈ s ∧ pp ≠ price) ∨ (pp = price ∧ qq = nq) := by
  intro s
  induction s with
  | nil => intro _ h; cases h
  | cons l rest ih =>
    rcases l with ⟨p, qh⟩
    intro hnd h
    simp only [levelKeys, List.map_cons, List.nodup_cons] at hnd
    unfold sideSet at h
    split at h
    · next hp =>
      rcases List.mem_cons.mp h with he | hm
      · injection he with h1 h2
        exact Or.inr ⟨h1.trans hp, h2⟩
      · refine Or.inl ⟨List.mem_cons_of_mem _ hm, ?_⟩
        intro hpp
        apply hnd.1
        have : pp ∈ List.map Prod.fst rest := List.mem_map_of_mem Prod.fst hm
        rw [← hpp.trans hp.symm]
        exact this
    · next hp =>
      rcases List.mem_cons.mp h with he | hm
      · injection he with h1 h2
        refine Or.inl ⟨?_, ?_⟩
        · rw [h1, h2]; exact List.mem_cons_self _ _
        · rw [h1]; exact hp
      · rcases ih hnd.2 hm with ⟨hm', hne⟩ | hr
        · exact Or.inl ⟨List.mem_cons_of_mem _ hm', hne⟩
        · exact Or.inr hr

theorem removeFromSide_levelKeys_sublist (s : BookSide) (price id : Nat) :
    List.Sublist (levelKeys (removeFromSide s price id)) (levelKeys s) := by
  unfold removeFromSide
  cases hget : sideGet s price with
  | none => exact List.Sublist.refl _
  | some q =>
    dsimp only
    split
    · exact (List.filter_sublist _).map Prod.fst
    · rw [levelKeys_sideSet]

theorem removeFromSide_sideIds_sublist (s : BookSide) (price id : Nat) :
    List.Sublist (sideIds (removeFromSide s price id)) (sideIds s) := by
  unfold removeFromSide
  cases hget : sideGet s price with
  | none => exact List.Sublist.refl _
  | some q =>
    dsimp only
    split
    · exact flatten_sublist _ _ ((List.filter_sublist _).map Prod.snd)
    · refine sideIds_sideSet_sublist s price (q.erase id) ?_
      intro q' hq'
      rw [hget] at hq'
      injection hq' with h
      rw [← h]
      exact List.erase_sublist id q

theorem removeFromSide_nonempty (s : BookSide) (price id : Nat)
    (hkeys : (levelKeys s).Nodup) (hne : ∀ l ∈ s, l.2 ≠ []) :
    ∀ l ∈ removeFromSide s price id, l.2 ≠ [] := by
  unfold removeFromSide
  cases hget : sideGet s price with
  | none => exact hne
  | some q =>
    dsimp only
    split
    · intro l hl
      exact hne l (List.mem_filter.mp hl).1
    · next hemp =>
      intro l hl
      rcases l with ⟨pp, qq⟩
      rcases mem_sideSet_nodup price (q.erase id) pp qq s hkeys hl with
        ⟨hm, _⟩ | ⟨_, rfl⟩
      · exact hne _ hm
      · intro hq
        refine hemp ?_
        have hq' : q.erase id = [] := hq
        rw [hq']
        rfl

theorem removeFromSide_queue_facts (s : BookSide) (price id : Nat)
    (hkeys : (levelKeys s).Nodup) (hnd : (sideIds s).Nodup) :
    ∀ pp qq, (pp, qq) ∈ removeFromSide s price id → ∀ x ∈ qq,
      (∃ qq₀, (pp, qq₀) ∈ s ∧ x ∈ qq₀) ∧ (pp = price → x ≠ id) := by
  unfold removeFromSide
  cases hget : sideGet s price with
  | none =>
    intro pp qq hm x hx
    refine ⟨⟨qq, hm, hx⟩, ?_⟩
    intro hpp _
    exact sideGet_none_not_mem s price hget qq (by rw [← hpp]; exact hm)
  | some q =>
    dsimp only
    split
    · intro pp qq hm x hx
      have hm' := List.mem_filter.mp hm
      refine ⟨⟨qq, hm'.1, hx⟩, ?_⟩
      intro hpp
      exfalso
      have h2 := hm'.2
      simp [hpp] at h2
    · intro pp qq hm x hx
      rcases mem_sideSet_nodup price (q.erase id) pp qq s hkeys hm with
        ⟨hm0, hne⟩ | ⟨hpp, rfl⟩
      · exact ⟨⟨qq, hm0, hx⟩, fun hpp => absurd hpp hne⟩
      · have hqmem : (price, q) ∈ s := sideGet_mem s price q hget
        have hqnd : q.Nodup := hnd.sublist
          (sublist_flatten_of_mem (s.map Prod.snd) q
            (List.mem_map_of_mem Prod.snd hqmem))
        have hx' := (hqnd.mem_erase_iff).mp hx
        exact ⟨⟨q, by rw [hpp]; exact hqmem, hx'.2⟩, fun _ => hx'.1⟩

theorem sidePush_levelKeys_mem (price id : Nat) :
    ∀ s : BookSide, ∀ k ∈ levelKeys (sidePush s price id),
      k ∈ levelKeys s ∨ k = price := by
  intro s
  induction s with
  | nil =>
    intro k hk
    simp [sidePush, levelKeys] at hk
    exact Or.inr hk
  | cons l rest ih =>
    rcases l with ⟨p, qh⟩
    intro k hk
    unfold sidePush at hk
    split at hk
    · simp only [levelKeys, List.map_cons] at hk ⊢
      rcases List.mem_cons.mp hk with rfl | hk
      · exact Or.inr rfl
      · exact Or.inl hk
    · split at hk
      · simp only [levelKeys, List.map_cons] at hk ⊢
        exact Or.inl hk
      · simp only [levelKeys, List.map_cons] at hk ⊢
        rcases List.mem_cons.mp hk with rfl | hk
        · exact Or.inl (List.mem_cons_self _ _)
        · rcases ih k hk with h | h
          · exact Or.inl (List.mem_cons_of_mem _ h)
          · exact Or.inr h

theorem sidePush_sorted (price id : Nat) :
    ∀ s : BookSide, (levelKeys s).Pairwise (· < ·) →
      (levelKeys (sidePush s price id)).Pairwise (· < ·) := by
  intro s
  induction s with
  | nil => intro _; simp [sidePush, levelKeys]
  | cons l rest ih =>
    rcases l with ⟨p, qh⟩
    intro hp
    simp only [levelKeys, List.map_cons] at hp ⊢
    unfold sidePush
    split
    · next hlt =>
      simp only [levelKeys, List.map_cons]
      rw [List.pairwise_cons]
      refine ⟨?_, hp⟩
      intro a ha
      rcases List.mem_cons.mp ha with rfl | ha
      · exact hlt
      · exact hlt.trans ((List.pairwise_cons.mp hp).1 a ha)
    · next h1 =>
      split
      · simp only [levelKeys, List.map_cons]
        exact hp
      · next h2 =>
        simp only [levelKeys, List.map_cons]
        rw [List.pairwise_cons]
        refine ⟨?_, ih (List.pairwise_cons.mp hp).2⟩
        intro a ha
        rcases sidePush_levelKeys_mem price id rest a ha with h | h
        · exact (List.pairwise_cons.mp hp).1 a h
        · rw [h]; omega

theorem sidePush_nonempty (price id : Nat) :
    ∀ s : BookSide, (∀ l ∈ s, l.2 ≠ []) →
      ∀ l ∈ sidePush s price id, l.2 ≠ [] := by
  intro s
  induction s with
  | nil =>
    intro _ l hl
    simp [sidePush] at hl
    rw [hl]
    simp
  | cons hd rest ih =>
    rcases hd with ⟨p, qh⟩
    intro hne l hl
    unfold sidePush at hl
    split at hl
    · rcases List.mem_cons.mp hl with rfl | hl
      · simp
      · exact hne l hl
    · split at hl
      · rcases List.mem_cons.mp hl with rfl | hl
        · simp
        · exact hne l (List.mem_cons_of_mem _ hl)
      · rcases List.mem_cons.mp hl with rfl | hl
        · exact hne _ (List.mem_cons_self _ _)
        · exact ih (fun l' hl' => hne l' (List.mem_cons_of_mem _ hl')) l hl

theorem sidePush_sideIds_perm (price id : Nat) :
    ∀ s : BookSide,
      List.Perm (sideIds (sidePush s price id)) (sideIds s ++ [id]) := by
  intro s
  induction s with
  | nil => simp [sidePush, sideIds]
  | cons l rest ih =>
    rcases l with ⟨p, qh⟩
    unfold sidePush
    split
    · simp only [sideIds_cons]
      exact List.perm_append_comm
    · split
      · simp only [sideIds_cons]
        rw [List.append_assoc, List.append_assoc]
        exact List.Perm.append_left qh List.perm_append_comm
      · simp only [sideIds_cons]
        rw [List.append_assoc]
        exact List.Perm.append_left qh ih

theorem sidePush_coherent (orders : OrdersMap) (side : Side) (price id : Nat)
    (ord : LimitOrder) (hord : lookupOrd orders id = some ord)
    (hprice : ord.price = price) (hside : ord.side = side)
    (hqty : 0 < ord.remaining_qty) :
    ∀ s : BookSide, sideCoherent orders s side →
      sideCoherent orders (sidePush s price id) side := by
  intro s
  induction s with
  | nil =>
    intro _ p q hm x hx
    simp [sidePush] at hm
    rcases hm with ⟨rfl, rfl⟩
    simp at hx
    rw [hx]
    exact ⟨ord, hord, hprice, hside, hqty⟩
  | cons l rest ih =>
    rcases l with ⟨pl, ql⟩
    intro hco p q hm x hx
    unfold sidePush at hm
    split at hm
    · rcases List.mem_cons.mp hm with he | hm
      · injection he with h1 h2
        rw [h2] at hx
        simp at hx
        rw [hx]
        exact ⟨ord, hord, by rw [hprice]; exact h1.symm, hside, hqty⟩
      · exact hco p q hm x hx
    · next hpe =>
      split at hm
      · next heq =>
        rcases List.mem_cons.mp hm with he | hm
        · injection he with h1 h2
          rw [h2] at hx
          rcases List.mem_append.mp hx with hx' | hx'
          · obtain ⟨o2, ho2, hp2, hs2, hq2⟩ :=
              hco pl ql (List.mem_cons_self _ _) x hx'
            exact ⟨o2, ho2, by rw [hp2]; exact h1.symm, hs2, hq2⟩
          · simp at hx'
            rw [hx']
            refine ⟨ord, hord, ?_, hside, hqty⟩
            rw [hprice, heq]
            exact h1.symm
        · exact hco p q (List.mem_cons_of_mem _ hm) x hx
      · rcases List.mem_cons.mp hm with he | hm
        · refine hco p q ?_ x hx
          rw [he]
          exact List.mem_cons_self _ _
        · exact ih (fun p' q' hm' => hco p' q' (List.mem_cons_of_mem _ hm'))
            p q hm x hx

theorem sideCoherent_congr (orders orders' : OrdersMap) (s : BookSide)
    (side : Side) (h : sideCoherent orders s side)
    (hl : ∀ x ∈ sideIds s, lookupOrd orders' x = lookupOrd orders x) :
    sideCoherent orders' s side := by
  intro p q hm x hx
  obtain ⟨ord, ho, hp, hs, hq⟩ := h p q hm x hx
  exact ⟨ord, (hl x (mem_sideIds_of_mem s p q x hm hx)).trans ho, hp, hs, hq⟩

/-- The invariant only looks at the index, the two sides and the id
counter. -/
theorem inv_transport (b c : OrderBook) (ho : c.orders = b.orders)
    (ha : c.asks = b.asks) (hb : c.bids = b.bids)
    (hn : b.next_order_id ≤ c.next_order_id) (hi : Inv b) : Inv c := by
  refine ⟨?_, ?_, ?_, ?_, ?_, ?_, ?_, ?_, ?_⟩
  · rw [ha]; exact hi.asks_sorted
  · rw [hb]; exact hi.bids_sorted
  · rw [ha]; exact hi.asks_nonempty
  · rw [hb]; exact hi.bids_nonempty
  · rw [ho, ha]; exact hi.asks_coherent
  · rw [ho, hb]; exact hi.bids_coherent
  · rw [ha, hb]; exact hi.ids_nodup
  · rw [ha, hb]
    intro x hx
    exact lt_of_lt_of_le (hi.ids_fresh x hx) hn
  · rw [ha, hb]; exact hi.uncrossed

theorem inv_journalTail (b : OrderBook) (r : ExecutionReport)
    (op : JournalOp) (oo : OrderOptions) (hi : Inv b) :
    Inv (journalTail b r op oo).2 := by
  rw [journalTail_snd]
  split
  · exact inv_transport b _ rfl rfl rfl (le_refl _) hi
  · exact hi

/-- A buy aggression: the ask walk runs, nothing rests. -/
theorem inv_matched_buy (b : OrderBook) (qty : Nat) (lp : Option Nat)
    (hi : Inv b) :
    Inv { b with
      next_order_id := b.next_order_id + 1
      orders := (match_with_asks b.orders b.asks qty lp).orders
      asks := (match_with_asks b.orders b.asks qty lp).levels } := by
  obtain ⟨hndB, hndA, hdisj⟩ := List.nodup_append.mp hi.ids_nodup
  obtain ⟨f1, f2, f3, f4, f5, f6, f7⟩ :=
    match_with_asks_facts b.asks b.orders qty lp hi.asks_sorted
      hi.asks_nonempty hndA hi.asks_coherent
  refine ⟨f1, hi.bids_sorted, f2, hi.bids_nonempty, f5, ?_, ?_, ?_, ?_⟩
  · exact sideCoherent_congr b.orders _ b.bids Side.Buy hi.bids_coherent
      (fun x hx => f6 x (fun hmem => hdisj hx hmem))
  · refine List.nodup_append.mpr ⟨hndB, f3, ?_⟩
    intro a ha hb
    exact hdisj ha (f4 a hb)
  · intro x hx
    rcases List.mem_append.mp hx with h | h
    · exact Nat.lt_succ_of_lt (hi.ids_fresh x (List.mem_append_left _ h))
    · exact Nat.lt_succ_of_lt
        (hi.ids_fresh x (List.mem_append_right _ (f4 x h)))
  · intro pb hpb pa hpa
    exact hi.uncrossed pb hpb pa (f7 pa hpa)

/-- A sell aggression: the bid walk runs, nothing rests. -/
theorem inv_matched_sell (b : OrderBook) (qty : Nat) (lp : Option Nat)
    (hi : Inv b) :
    Inv { b with
      next_order_id := b.next_order_id + 1
      orders := (match_with_bids b.orders b.bids qty lp).orders
      bids := (match_with_bids b.orders b.bids qty lp).levels } := by
  obtain ⟨hndB, hndA, hdisj⟩ := List.nodup_append.mp hi.ids_nodup
  obtain ⟨f1, f2, f3, f4, f5, f6, f7⟩ :=
    match_with_bids_facts b.bids b.orders qty lp hi.bids_sorted
      hi.bids_nonempty hndB hi.bids_coherent
  refine ⟨hi.asks_sorted, f1, hi.asks_nonempty, f2, ?_, f5, ?_, ?_, ?_⟩
  · exact sideCoherent_congr b.orders _ b.asks Side.Sell hi.asks_coherent
      (fun x hx => f6 x (fun hmem => hdisj hmem hx))
  · refine List.nodup_append.mpr ⟨f3, hndA, ?_⟩
    intro a ha hb
    exact hdisj (f4 a ha) hb
  · intro x hx
    rcases List.mem_append.mp hx with h | h
    · exact Nat.lt_succ_of_lt
        (hi.ids_fresh x (List.mem_append_left _ (f4 x h)))
    · exact Nat.lt_succ_of_lt (hi.ids_fresh x (List.mem_append_right _ h))
  · intro pb hpb pa hpa
    exact hi.uncrossed pb (f7 pb hpb) pa hpa

/-- A buy limit whose residual rests: the walk ran with the limit price and
stopped short, then the residual is pushed onto the bids. -/
theorem inv_rested_buy (b : OrderBook) (qty price : Nat) (ord : LimitOrder)
    (hi : Inv b)
    (hp : 0 < (match_with_asks b.orders b.asks qty (some price)).qtyLeft)
    (hprice : ord.price = price) (hside : ord.side = Side.Buy)
    (hqty : 0 < ord.remaining_qty) :
    Inv { b with
      next_order_id := b.next_order_id + 1
      orders := insertOrd
        (match_with_asks b.orders b.asks qty (some price)).orders
        b.next_order_id ord
      asks := (match_with_asks b.orders b.asks qty (some price)).levels
      bids := sidePush b.bids price b.next_order_id } := by
  obtain ⟨hndB, hndA, hdisj⟩ := List.nodup_append.mp hi.ids_nodup
  obtain ⟨f1, f2, f3, f4, f5, f6, f7⟩ :=
    match_with_asks_facts b.asks b.orders qty (some price) hi.asks_sorted
      hi.asks_nonempty hndA hi.asks_coherent
  have hres : ∀ x ∈ sideIds b.asks, (lookupOrd b.orders x).isSome := by
    intro x hx
    obtain ⟨p, q, hm, hq⟩ := exists_level_of_mem_sideIds b.asks x hx
    obtain ⟨o2, ho2, _⟩ := hi.asks_coherent p q hm x hq
    rw [ho2]
    rfl
  have hresid := match_with_asks_residual b.asks b.orders qty price
    hi.asks_sorted hndA hres hp
  have hfreshB : b.next_order_id ∉ sideIds b.bids := fun hmem =>
    lt_irrefl _ (hi.ids_fresh _ (List.mem_append_left _ hmem))
  have hfreshA : b.next_order_id ∉ sideIds b.asks := fun hmem =>
    lt_irrefl _ (hi.ids_fresh _ (List.mem_append_right _ hmem))
  have hlookN : lookupOrd (insertOrd
      (match_with_asks b.orders b.asks qty (some price)).orders
      b.next_order_id ord) b.next_order_id = some ord := by
    rw [lookup_insertOrd, if_pos rfl]
  have hcoB : sideCoherent (insertOrd
      (match_with_asks b.orders b.asks qty (some price)).orders
      b.next_order_id ord) b.bids Side.Buy := by
    refine sideCoherent_congr b.orders _ b.bids Side.Buy hi.bids_coherent ?_
    intro x hx
    have hxa : x ∉ sideIds b.asks := fun hmem => hdisj hx hmem
    rw [lookup_insertOrd, if_neg (show ¬ b.next_order_id = x from
      fun h => hfreshB (by rw [h]; exact hx)), f6 x hxa]
  refine ⟨f1, sidePush_sorted price b.next_order_id b.bids hi.bids_sorted,
    f2, sidePush_nonempty price b.next_order_id b.bids hi.bids_nonempty,
    ?_, ?_, ?_, ?_, ?_⟩
  · refine sideCoherent_congr _ _ _ Side.Sell f5 ?_
    intro x hx
    rw [lookup_insertOrd, if_neg (show ¬ b.next_order_id = x from
      fun h => hfreshA (by rw [h]; exact f4 x hx))]
  · exact sidePush_coherent _ Side.Buy price b.next_order_id ord hlookN
      hprice hside hqty b.bids hcoB
  · refine (List.Perm.nodup_iff (List.Perm.append_right _
      (sidePush_sideIds_perm price b.next_order_id b.bids))).mpr ?_
    refine List.nodup_append.mpr ⟨?_, f3, ?_⟩
    · refine List.nodup_append.mpr ⟨hndB, List.nodup_singleton _, ?_⟩
      intro a ha hb
      simp at hb
      exact hfreshB (hb ▸ ha)
    · intro a ha hb
      rcases List.mem_append.mp ha with h | h
      · exact hdisj h (f4 a hb)
      · simp at h
        exact hfreshA (h ▸ f4 a hb)
  · intro x hx
    rcases List.mem_append.mp hx with h | h
    · have h' := (List.Perm.mem_iff
        (sidePush_sideIds_perm price b.next_order_id b.bids)).mp h
      rcases List.mem_append.mp h' with h'' | h''
      · exact Nat.lt_succ_of_lt
          (hi.ids_fresh x (List.mem_append_left _ h''))
      · simp at h''
        rw [h'']
        exact Nat.lt_succ_self _
    · exact Nat.lt_succ_of_lt
        (hi.ids_fresh x (List.mem_append_right _ (f4 x h)))
  · intro pb hpb pa hpa
    rcases sidePush_levelKeys_mem price b.next_order_id b.bids pb hpb with
      h | h
    · exact hi.uncrossed pb h pa (f7 pa hpa)
    · rw [h]
      exact hresid pa hpa

/-- A sell limit whose residual rests on the asks. -/
theorem inv_rested_sell (b : OrderBook) (qty price : Nat) (ord : LimitOrder)
    (hi : Inv b)
    (hp : 0 < (match_with_bids b.orders b.bids qty (some price)).qtyLeft)
    (hprice : ord.price = price) (hside : ord.side = Side.Sell)
    (hqty : 0 < ord.remaining_qty) :
    Inv { b with
      next_order_id := b.next_order_id + 1
      orders := insertOrd
        (match_with_bids b.orders b.bids qty (some price)).orders
        b.next_order_id ord
      bids := (match_with_bids b.orders b.bids qty (some price)).levels
      asks := sidePush b.asks price b.next_order_id } := by
  obtain ⟨hndB, hndA, hdisj⟩ := List.nodup_append.mp hi.ids_nodup
  obtain ⟨f1, f2, f3, f4, f5, f6, f7⟩ :=
    match_with_bids_facts b.bids b.orders qty (some price) hi.bids_sorted
      hi.bids_nonempty hndB hi.bids_coherent
  have hres : ∀ x ∈ sideIds b.bids, (lookupOrd b.orders x).isSome := by
    intro x hx
    obtain ⟨p, q, hm, hq⟩ := exists_level_of_mem_sideIds b.bids x hx
    obtain ⟨o2, ho2, _⟩ := hi.bids_coherent p q hm x hq
    rw [ho2]
    rfl
  have hresid := match_with_bids_residual b.bids b.orders qty price
    hi.bids_sorted hndB hres hp
  have hfreshB : b.next_order_id ∉ sideIds b.bids := fun hmem =>
    lt_irrefl _ (hi.ids_fresh _ (List.mem_append_left _ hmem))
  have hfreshA : b.next_order_id ∉ sideIds b.asks := fun hmem =>
    lt_irrefl _ (hi.ids_fresh _ (List.mem_append_right _ hmem))
  have hlookN : lookupOrd (insertOrd
      (match_with_bids b.orders b.bids qty (some price)).orders
      b.next_order_id ord) b.next_order_id = some ord := by
    rw [lookup_insertOrd, if_pos rfl]
  have hcoA : sideCoherent (insertOrd
      (match_with_bids b.orders b.bids qty (some price)).orders
      b.next_order_id ord) b.asks Side.Sell := by
    refine sideCoherent_congr b.orders _ b.asks Side.Sell hi.asks_coherent ?_
    intro x hx
    have hxb : x ∉ sideIds b.bids := fun hmem => hdisj hmem hx
    rw [lookup_insertOrd, if_neg (show ¬ b.next_order_id = x from
      fun h => hfreshA (by rw [h]; exact hx)), f6 x hxb]
  refine ⟨sidePush_sorted price b.next_order_id b.asks hi.asks_sorted, f1,
    sidePush_nonempty price b.next_order_id b.asks hi.asks_nonempty, f2,
    ?_, ?_, ?_, ?_, ?_⟩
  · exact sidePush_coherent _ Side.Sell price b.next_order_id ord hlookN
      hprice hside hqty b.asks hcoA
  · refine sideCoherent_congr _ _ _ Side.Buy f5 ?_
    intro x hx
    rw [lookup_insertOrd, if_neg (show ¬ b.next_order_id = x from
      fun h => hfreshB (by rw [h]; exact f4 x hx))]
  · refine (List.Perm.nodup_iff (List.Perm.append_left _
      (sidePush_sideIds_perm price b.next_order_id b.asks))).mpr ?_
    refine List.nodup_append.mpr ⟨f3, ?_, ?_⟩
    · refine List.nodup_append.mpr ⟨hndA, List.nodup_singleton _, ?_⟩
      intro a ha hb
      simp at hb
      exact hfreshA (hb ▸ ha)
    · intro a ha hb
      rcases List.mem_append.mp hb with h | h
      · exact hdisj (f4 a ha) h
      · simp at h
        exact hfreshB (h ▸ f4 a ha)
  · intro x hx
    rcases List.mem_append.mp hx with h | h
    · exact Nat.lt_succ_of_lt
        (hi.ids_fresh x (List.mem_append_left _ (f4 x h)))
    · have h' := (List.Perm.mem_iff
        (sidePush_sideIds_perm price b.next_order_id b.asks)).mp h
      rcases List.mem_append.mp h' with h'' | h''
      · exact Nat.lt_succ_of_lt
          (hi.ids_fresh x (List.mem_append_right _ h''))
      · simp at h''
        rw [h'']
        exact Nat.lt_succ_self _
  · intro pb hpb pa hpa
    rcases sidePush_levelKeys_mem price b.next_order_id b.asks pa hpa with
      h | h
    · exact hi.uncrossed pb (f7 pb hpb) pa h
    · rw [h]
      exact hresid pb hpb

/-- `cancel` of a resting buy: erase from the index and drop from its bid
level. -/
theorem inv_erase_buy (b : OrderBook) (id : Nat) (ord : LimitOrder)
    (hv : lookupOrd b.orders id = some ord) (hs : ord.side = Side.Buy)
    (hi : Inv b) :
    Inv { b with orders := eraseOrd b.orders id
                 bids := removeFromSide b.bids ord.price id } := by
  obtain ⟨hndB, hndA, hdisj⟩ := List.nodup_append.mp hi.ids_nodup
  have hkeysB : (levelKeys b.bids).Nodup :=
    hi.bids_sorted.imp (fun h => Nat.ne_of_lt h)
  have hrmK := removeFromSide_levelKeys_sublist b.bids ord.price id
  have hrmI := removeFromSide_sideIds_sublist b.bids ord.price id
  have hqf := removeFromSide_queue_facts b.bids ord.price id hkeysB hndB
  refine ⟨hi.asks_sorted, hi.bids_sorted.sublist hrmK, hi.asks_nonempty,
    removeFromSide_nonempty b.bids ord.price id hkeysB hi.bids_nonempty,
    ?_, ?_, ?_, ?_, ?_⟩
  · intro p q hm x hx
    obtain ⟨o2, ho2, hp2, hs2, hq2⟩ := hi.asks_coherent p q hm x hx
    have hne : x ≠ id := by
      intro he
      rw [he, hv] at ho2
      injection ho2 with he2
      rw [← he2, hs] at hs2
      cases hs2
    refine ⟨o2, ?_, hp2, hs2, hq2⟩
    rw [lookup_eraseOrd, if_neg hne]
    exact ho2
  · intro p q hm x hx
    obtain ⟨⟨q₀, hm₀, hx₀⟩, himp⟩ := hqf p q hm x hx
    obtain ⟨o2, ho2, hp2, hs2, hq2⟩ := hi.bids_coherent p q₀ hm₀ x hx₀
    have hne : x ≠ id := by
      intro he
      rw [he, hv] at ho2
      injection ho2 with he2
      exact himp (by rw [← hp2, ← he2]) he
    refine ⟨o2, ?_, hp2, hs2, hq2⟩
    rw [lookup_eraseOrd, if_neg hne]
    exact ho2
  · refine List.nodup_append.mpr ⟨hndB.sublist hrmI, hndA, ?_⟩
    intro a ha hb
    exact hdisj (hrmI.subset ha) hb
  · intro x hx
    rcases List.mem_append.mp hx with h | h
    · exact hi.ids_fresh x (List.mem_append_left _ (hrmI.subset h))
    · exact hi.ids_fresh x (List.mem_append_right _ h)
  · intro pb hpb pa hpa
    exact hi.uncrossed pb (hrmK.subset hpb) pa hpa

/-- `cancel` of a resting sell: erase from the index and drop from its ask
level. -/
theorem inv_erase_sell (b : OrderBook) (id : Nat) (ord : LimitOrder)
    (hv : lookupOrd b.orders id = some ord) (hs : ord.side = Side.Sell)
    (hi : Inv b) :
    Inv { b with orders := eraseOrd b.orders id
                 asks := removeFromSide b.asks ord.price id } := by
  obtain ⟨hndB, hndA, hdisj⟩ := List.nodup_append.mp hi.ids_nodup
  have hkeysA : (levelKeys b.asks).Nodup :=
    hi.asks_sorted.imp (fun h => Nat.ne_of_lt h)
  have hrmK := removeFromSide_levelKeys_sublist b.asks ord.price id
  have hrmI := removeFromSide_sideIds_sublist b.asks ord.price id
  have hqf := removeFromSide_queue_facts b.asks ord.price id hkeysA hndA
  refine ⟨hi.asks_sorted.sublist hrmK, hi.bids_sorted,
    removeFromSide_nonempty b.asks ord.price id hkeysA hi.asks_nonempty,
    hi.bids_nonempty, ?_, ?_, ?_, ?_, ?_⟩
  · intro p q hm x hx
    obtain ⟨⟨q₀, hm₀, hx₀⟩, himp⟩ := hqf p q hm x hx
    obtain ⟨o2, ho2, hp2, hs2, hq2⟩ := hi.asks_coherent p q₀ hm₀ x hx₀
    have hne : x ≠ id := by
      intro he
      rw [he, hv] at ho2
      injection ho2 with he2
      exact himp (by rw [← hp2, ← he2]) he
    refine ⟨o2, ?_, hp2, hs2, hq2⟩
    rw [lookup_eraseOrd, if_neg hne]
    exact ho2
  · intro p q hm x hx
    obtain ⟨o2, ho2, hp2, hs2, hq2⟩ := hi.bids_coherent p q hm x hx
    have hne : x ≠ id := by
      intro he
      rw [he, hv] at ho2
      injection ho2 with he2
      rw [← he2, hs] at hs2
      cases hs2
    refine ⟨o2, ?_, hp2, hs2, hq2⟩
    rw [lookup_eraseOrd, if_neg hne]
    exact ho2
  · refine List.nodup_append.mpr ⟨hndB, hndA.sublist hrmI, ?_⟩
    intro a ha hb
    exact hdisj ha (hrmI.subset hb)
  · intro x hx
    rcases List.mem_append.mp hx with h | h
    · exact hi.ids_fresh x (List.mem_append_left _ h)
    · exact hi.ids_fresh x (List.mem_append_right _ (hrmI.subset h))
  · intro pb hpb pa hpa
    exact hi.uncrossed pb hpb pa (hrmK.subset hpa)

/-! ### The invariant is preserved by every public operation -/

theorem inv_market (b : OrderBook) (o : MarketOrderOptions) (hi : Inv b) :
    Inv (b.market o).2 := by
  rcases o with ⟨oside, oqty⟩
  unfold OrderBook.market
  cases hv : b.validate_market_order ⟨oside, oqty⟩ with
  | some e => exact hi
  | none =>
    dsimp only
    simp only [MarketOrder.new]
    cases oside
    · dsimp only
      apply inv_journalTail
      exact inv_matched_buy b oqty none hi
    · dsimp only
      apply inv_journalTail
      exact inv_matched_sell b oqty none hi

theorem inv_limit (b : OrderBook) (o : LimitOrderOptions) (hi : Inv b) :
    Inv (b.limit o).2 := by
  rcases o with ⟨oside, oqty, oprice, otif, opo⟩
  unfold OrderBook.limit
  cases hv : b.validate_limit_order ⟨oside, oqty, oprice, otif, opo⟩ with
  | some e => exact hi
  | none =>
    dsimp only
    simp only [LimitOrder.new]
    cases oside
    · dsimp only
      apply inv_journalTail
      split
      · next hq =>
        split
        · exact inv_matched_buy b oqty (some oprice) hi
        · split
          · exact inv_rested_buy b oqty oprice _ hi hq rfl rfl hq
          · next hno => exact absurd rfl hno
      · exact inv_matched_buy b oqty (some oprice) hi
    · dsimp only
      apply inv_journalTail
      split
      · next hq =>
        split
        · exact inv_matched_sell b oqty (some oprice) hi
        · split
          · next hyes => cases hyes
          · exact inv_rested_sell b oqty oprice _ hi hq rfl rfl hq
      · exact inv_matched_sell b oqty (some oprice) hi

theorem inv_cancel (b : OrderBook) (id : Nat) (hi : Inv b) :
    Inv (b.cancel id).2 := by
  unfold OrderBook.cancel
  cases hv : lookupOrd b.orders id with
  | none => exact hi
  | some ord =>
    dsimp only
    cases hs : ord.side
    · dsimp only
      apply inv_journalTail
      exact inv_erase_buy b id ord hv hs hi
    · dsimp only
      apply inv_journalTail
      exact inv_erase_sell b id ord hv hs hi

theorem inv_modify (b : OrderBook) (id : Nat) (price quantity : Option Nat)
    (hi : Inv b) : Inv (b.modify id price quantity).2 := by
  unfold OrderBook.modify
  dsimp only
  have h0 : Inv { b with journaling := false } :=
    inv_transport b _ rfl rfl rfl (le_refl _) hi
  have h1 := inv_cancel { b with journaling := false } id h0
  cases hc : { b with journaling := false }.cancel id with
  | mk res b1 =>
    rw [hc] at h1
    cases res with
    | error e =>
      dsimp only at h1 ⊢
      exact inv_transport b1 _ rfl rfl rfl (le_refl _) h1
    | ok order =>
      dsimp only at h1 ⊢
      cases price with
      | none =>
        cases quantity with
        | none =>
          dsimp only
          exact inv_transport b1 _ rfl rfl rfl (le_refl _) h1
        | some q =>
          dsimp only
          have h2 := inv_limit b1
            { side := order.side, quantity := q, price := order.price,
              time_in_force := some order.time_in_force,
              post_only := some order.post_only } h1
          cases hl : b1.limit
            { side := order.side, quantity := q, price := order.price,
              time_in_force := some order.time_in_force,
              post_only := some order.post_only } with
          | mk res2 b2 =>
            rw [hl] at h2
            dsimp only at h2 ⊢
            cases res2 with
            | error e => exact inv_transport b2 _ rfl rfl rfl (le_refl _) h2
            | ok r =>
              dsimp only
              split
              · exact inv_transport b2 _ rfl rfl rfl (le_refl _) h2
              · exact inv_transport b2 _ rfl rfl rfl (le_refl _) h2
      | some p =>
        cases quantity with
        | none =>
          dsimp only
          have h2 := inv_limit b1
            { side := order.side, quantity := order.remaining_qty,
              price := p, time_in_force := some order.time_in_force,
              post_only := some order.post_only } h1
          cases hl : b1.limit
            { side := order.side, quantity := order.remaining_qty,
              price := p, time_in_force := some order.time_in_force,
              post_only := some order.post_only } with
          | mk res2 b2 =>
            rw [hl] at h2
            dsimp only at h2 ⊢
            cases res2 with
            | error e => exact inv_transport b2 _ rfl rfl rfl (le_refl _) h2
            | ok r =>
              dsimp only
              split
              · exact inv_transport b2 _ rfl rfl rfl (le_refl _) h2
              · exact inv_transport b2 _ rfl rfl rfl (le_refl _) h2
        | some q =>
          dsimp only
          have h2 := inv_limit b1
            { side := order.side, quantity := q, price := p,
              time_in_force := some order.time_in_force,
              post_only := some order.post_only } h1
          cases hl : b1.limit
            { side := order.side, quantity := q, price := p,
              time_in_force := some order.time_in_force,
              post_only := some order.post_only } with
          | mk res2 b2 =>
            rw [hl] at h2
            dsimp only at h2 ⊢
            cases res2 with
            | error e => exact inv_transport b2 _ rfl rfl rfl (le_refl _) h2
            | ok r =>
              dsimp only
              split
              · exact inv_transport b2 _ rfl rfl rfl (le_refl _) h2
              · exact inv_transport b2 _ rfl rfl rfl (le_refl _) h2

theorem inv_runOp (b : OrderBook) (op : Op) (hi : Inv b) :
    Inv (runOp b op).2 := by
  cases op with
  | market o => exact inv_market b o hi
  | limit o => exact inv_limit b o hi
  | cancel id => exact inv_cancel b id hi
  | modify id price quantity => exact inv_modify b id price quantity hi

theorem inv_new (symbol : String) (opts : OrderBookOptions) :
    Inv (OrderBook.new symbol opts) := by
  refine ⟨?_, ?_, ?_, ?_, ?_, ?_, ?_, ?_, ?_⟩ <;>
    simp [OrderBook.new, levelKeys, sideIds, sideCoherent]

/-- Every reachable book satisfies the structural invariant. -/
theorem reachable_inv (b : OrderBook) (h : Reachable b) : Inv b := by
  induction h with
  | base symbol opts => exact inv_new symbol opts
  | step b op _ ih => exact inv_runOp b op ih

/-- C7: in every book state reachable from a fresh book by any sequence of
public operations (market, limit, cancel, modify), the best bid price is
strictly below the best ask price whenever both exist — the book is never
crossed. -/
theorem book_never_crossed (b : OrderBook) (hr : Reachable b) (pb pa : Nat)
    (hb : b.best_bid = some pb) (ha : b.best_ask = some pa) : pb < pa := by
  have hi := reachable_inv b hr
  unfold OrderBook.best_bid at hb
  unfold OrderBook.best_ask at ha
  cases hgb : b.bids.getLast? with
  | none => rw [hgb] at hb; cases hb
  | some lb =>
    rw [hgb] at hb
    cases hga : b.asks.head? with
    | none => rw [hga] at ha; cases ha
    | some la =>
      rw [hga] at ha
      injection hb with hb
      injection ha with ha
      have hmb : lb ∈ b.bids := List.mem_of_getLast?_eq_some hgb
      have hma : la ∈ b.asks := List.mem_of_mem_head? (Option.mem_def.mpr hga)
      have hkb : pb ∈ levelKeys b.bids := by
        rw [← hb]
        exact List.mem_map_of_mem Prod.fst hmb
      have hka : pa ∈ levelKeys b.asks := by
        rw [← ha]
        exact List.mem_map_of_mem Prod.fst hma
      exact hi.uncrossed pb hkb pa hka

/-- The never-crossed statement at a concrete reachable two-sided book:
a bid resting at 998 and an ask resting at 1002. -/
theorem book_never_crossed_witness :
    (runOp (runOp (OrderBook.new "BTCUSD" { journaling := false })
        (Op.limit
          { side := Side.Buy, quantity := 5, price := 998,
            time_in_force := none, post_only := none })).2
      (Op.limit
        { side := Side.Sell, quantity := 5, price := 1002,
          time_in_force := none, post_only := none })).2.best_bid =
      some 998 ∧
    (runOp (runOp (OrderBook.new "BTCUSD" { journaling := false })
        (Op.limit
          { side := Side.Buy, quantity := 5, price := 998,
            time_in_force := none, post_only := none })).2
      (Op.limit
        { side := Side.Sell, quantity := 5, price := 1002,
          time_in_force := none, post_only := none })).2.best_ask =
      some 1002 ∧
    (998 : Nat) < 1002 := by
  refine ⟨rfl, rfl, ?_⟩
  exact book_never_crossed _
    (Reachable.step _
      (Op.limit
        { side := Side.Sell, quantity := 5, price := 1002,
          time_in_force := none, post_only := none })
      (Reachable.step _
        (Op.limit
          { side := Side.Buy, quantity := 5, price := 998,
            time_in_force := none, post_only := none })
        (Reachable.base "BTCUSD" { journaling := false })))
    998 1002 rfl rfl

end RustOrderBook
